import Mathlib

/-!
Shallow embedding of `rust/core-lib/src/index_set.rs` (xi-editor's `IndexSet`),
a sorted set of half-open `usize` intervals, together with proofs about its
operations.  `Vec<(usize, usize)>` is modelled as `List (Nat × Nat)`; all
arithmetic in the source is on `usize` values with no overflow or underflow on
the modelled paths, so plain `Nat` arithmetic coincides with it.  Loops that
the Rust source drives by index mutation are modelled either by structural
recursion over the scanned suffix or, where the loop index feeds back into the
vector (`delete_range`'s main loop, the standard library's binary search, and
`next_back`'s tail loop), by a fuel parameter chosen at each call site to
strictly exceed the iteration count of the Rust loop, so the fuel-exhausted
branch is unreachable there.
-/

namespace IndexSet

/-- A stored interval `(start, end)`, half-open, mirroring the Rust
`(usize, usize)` pairs held in `IndexSet::ranges`. -/
abbrev Range := Nat × Nat

/-- `remove_n_at(v, index, n)` removes `n` consecutive elements starting at
`index`.  The Rust function shifts the elements after the removed block down
and truncates; for the in-bounds calls the source makes, that is exactly
`take index ++ drop (index + n)` (for `n = 0` the Rust function does nothing,
and so does this). -/
def remove_n_at {α : Type} (v : List α) (index n : Nat) : List α :=
  v.take index ++ v.drop (index + n)

/-- The inner `while j + 1 < len && end >= ranges[j+1].0` loop of
`union_one_range`: starting from the merge anchor (`cur = ranges[j]`), absorb
following intervals while the new end reaches their start.  Returns the last
absorbed interval (`ranges[j]`) and the remaining suffix (what survives the
`remove_n_at(&mut self.ranges, i + 1, j - i)` call). -/
def unionAbsorb (e : Nat) (cur : Range) : List Range → Range × List Range
  | [] => (cur, [])
  | r :: rest => if e ≥ r.1 then unionAbsorb e r rest else (cur, r :: rest)

/-- `IndexSet::union_one_range`.  The Rust `for i in 0..len` loop with
`continue` is the structural recursion in the first branch; the final
`self.ranges.push((start, end))` is the `[]` case; the `insert` branch and the
merge branch are verbatim.  In the merge branch, `ranges[i].0 = min(start,
istart)` and `ranges[i].1 = max(end, ranges[j].1)` with `ranges[j]` the last
absorbed interval. -/
def union_one_range (ranges : List Range) (s e : Nat) : List Range :=
  match ranges with
  | [] => [(s, e)]
  | (istart, iend) :: rest =>
    if s > iend then (istart, iend) :: union_one_range rest s e
    else if e < istart then (s, e) :: (istart, iend) :: rest
    else
      (min s istart, max e (unionAbsorb e (istart, iend) rest).1.2) ::
        (unionAbsorb e (istart, iend) rest).2

/-- Rust `slice::binary_search_by` (the standard library loop:
`mid = left + (right - left) / 2`, narrowing on `Less`/`Greater`, `Ok(mid)` on
`Equal`, `Err(left)` at exit).  `f i` is the comparator applied to element `i`.
The fuel strictly exceeds `right - left` at every call site, and each
iteration strictly shrinks `right - left`, so the fuel-out branch (which
returns the loop's exit value) is never taken there. -/
def bsLoop (f : Nat → Ordering) : Nat → Nat → Nat → Nat ⊕ Nat
  | 0, left, _ => .inr left
  | fuel + 1, left, right =>
    if left < right then
      let mid := left + (right - left) / 2
      match f mid with
      | .lt => bsLoop f fuel (mid + 1) right
      | .gt => bsLoop f fuel left mid
      | .eq => .inl mid
    else .inr left

/-- `match self.ranges.binary_search_by(...) { Ok(ix) => ix, Err(ix) => ix }`. -/
def sumIdx : Nat ⊕ Nat → Nat
  | .inl i => i
  | .inr i => i

/-- The epilogue of `delete_range`:
`if let Some(del_from) = del_from { remove_n_at(&mut self.ranges, del_from, del_len) }`. -/
def deleteFinish (ranges : List Range) : Option Nat → Nat → List Range
  | none, _ => ranges
  | some d, n => remove_n_at ranges d n

/-- The main `while ix < self.ranges.len()` loop of `delete_range`, with state
`(ranges, ix, del_from, del_len)`.  In the split branch (interval straddling
both `start` and `end`) the Rust code inserts `(end, old_end)` at `ix + 1` and
clips the current interval's end to `start`; the next Rust iteration then sees
the inserted interval, whose start is `end`, and unconditionally breaks, so
that branch finishes directly here.  Fuel strictly exceeds the remaining
iteration count (`len - ix` plus one) at every call site. -/
def deleteLoop (s e : Nat) : Nat → List Range → Nat → Option Nat → Nat → List Range
  | 0, ranges, _, del_from, del_len => deleteFinish ranges del_from del_len
  | fuel + 1, ranges, ix, del_from, del_len =>
    if ix < ranges.length then
      let r := ranges.getD ix (0, 0)
      if r.1 ≥ e then deleteFinish ranges del_from del_len
      else if r.1 < s then
        if r.2 > e then
          deleteFinish ((ranges.set ix (r.1, s)).insertIdx (ix + 1) (e, r.2))
            del_from del_len
        else deleteLoop s e fuel (ranges.set ix (r.1, s)) (ix + 1) del_from del_len
      else if r.2 > e then
        deleteLoop s e fuel (ranges.set ix (e, r.2)) (ix + 1) del_from del_len
      else
        deleteLoop s e fuel ranges (ix + 1)
          (match del_from with | none => some ix | some d => some d) (del_len + 1)
    else deleteFinish ranges del_from del_len

/-- `IndexSet::delete_range`: binary search on interval ends for `start`, then
the clipping/removal loop from the resulting index. -/
def delete_range (ranges : List Range) (s e : Nat) : List Range :=
  let ix := sumIdx (bsLoop (fun i => compare (ranges.getD i (0, 0)).2 s)
    (ranges.length + 1) 0 ranges.length)
  deleteLoop s e (ranges.length + 1) ranges ix none 0

/-- The state of the `MinusIter` struct: a borrowed slice of the set's ranges
plus the two cursors (the Rust fields `ranges`, `start`, `end`). -/
structure MinusIter where
  ranges : List Range
  start : Nat
  stop : Nat
deriving DecidableEq

/-- The body of `MinusIter::next`.  The Rust `while self.start < self.end`
loop either returns the whole remaining window, yields the gap before the
first covering interval, or (when that gap is empty) advances past the
interval and repeats; the returned `MinusIter` is the mutated iterator. -/
def nextIter : List Range → Nat → Nat → Option (Range × MinusIter)
  | [], s, e => if s < e then some ((s, e), ⟨[], e, e⟩) else none
  | (a, b) :: rest, s, e =>
    if s < e then
      if e ≤ a then some ((s, e), ⟨(a, b) :: rest, e, e⟩)
      else if a > s then some ((s, a), ⟨rest, b, e⟩)
      else nextIter rest b e
    else none

/-- `Iterator::next` for `MinusIter`. -/
def MinusIter.next (it : MinusIter) : Option (Range × MinusIter) :=
  nextIter it.ranges it.start it.stop

/-- The body of `MinusIter::next_back`, mirrored from the tail of the slice:
either return the whole remaining window, yield the part of the window after
the last covering interval, or (when that part is empty) shrink the window to
that interval's start and repeat.  Each iteration drops the slice's last
element, so fuel `length + 1` (what `MinusIter.nextBack` passes) always
suffices and the fuel-out branch is unreachable from it. -/
def nextBackIter : Nat → List Range → Nat → Nat → Option (Range × MinusIter)
  | 0, _, _, _ => none
  | fuel + 1, ranges, s, e =>
    if s < e then
      match ranges.getLast? with
      | none => some ((s, e), ⟨ranges, e, e⟩)
      | some (a, b) =>
        if b ≤ s then some ((s, e), ⟨ranges, e, e⟩)
        else if e > b then some ((b, e), ⟨ranges.dropLast, s, a⟩)
        else nextBackIter fuel ranges.dropLast s a
    else none

/-- `DoubleEndedIterator::next_back` for `MinusIter`. -/
def MinusIter.nextBack (it : MinusIter) : Option (Range × MinusIter) :=
  nextBackIter (it.ranges.length + 1) it.ranges it.start it.stop

/-- The `while !ranges.is_empty() && start >= ranges[0].1 { ranges = &ranges[1..] }`
prologue of `minus_one_range`. -/
def dropLeading (s : Nat) : List Range → List Range
  | [] => []
  | r :: rest => if s ≥ r.2 then dropLeading s rest else r :: rest

/-- `IndexSet::minus_one_range`: build the iterator after skipping stored
intervals that end at or before the window start. -/
def minus_one_range (ranges : List Range) (s e : Nat) : MinusIter :=
  ⟨dropLeading s ranges, s, e⟩

/-- Repeatedly call `next` (up to `fuel` times), collecting the yielded
intervals in order: "fully consuming the iterator forward" when `fuel` is at
least one more than the number of yields. -/
def consumeFwd : Nat → MinusIter → List Range
  | 0, _ => []
  | fuel + 1, it =>
    match it.next with
    | none => []
    | some (g, it') => g :: consumeFwd fuel it'

/-- Repeatedly call `nextBack`, collecting the yielded intervals in call
order. -/
def consumeBack : Nat → MinusIter → List Range
  | 0, _ => []
  | fuel + 1, it =>
    match it.nextBack with
    | none => []
    | some (g, it') => g :: consumeBack fuel it'

/-- Drive one iterator by an arbitrary interleaving of `next` (`true`) and
`nextBack` (`false`) calls, collecting every yielded interval in call order. -/
def consumeDirs : List Bool → MinusIter → List Range
  | [], _ => []
  | d :: ds, it =>
    match (if d then it.next else it.nextBack) with
    | none => consumeDirs ds it
    | some (g, it') => g :: consumeDirs ds it'

/-- The list of all intervals produced by consuming `nextIter` forward from
state `(ranges, s, e)` until it returns `none`: a structurally recursive
restatement of that unfolding, used to reason about full forward
consumption. -/
def minusList : List Range → Nat → Nat → List Range
  | [], s, e => if s < e then [(s, e)] else []
  | (a, b) :: rest, s, e =>
    if s < e then
      if e ≤ a then [(s, e)]
      else if a > s then (s, a) :: minusList rest b e
      else minusList rest b e
    else []

/-- One step of the output-building loop of `apply_delta`: skip a collapsed
mapped interval, merge one that starts where the last emitted interval ends,
otherwise push it. -/
def applyDeltaPush (out : List Range) (nr : Range) : List Range :=
  if nr.1 = nr.2 then out
  else
    match out.getLast? with
    | some lst => if lst.2 = nr.1 then out.dropLast ++ [(lst.1, nr.2)] else out ++ [nr]
    | none => out ++ [nr]

/-- `IndexSet::apply_delta`.  The `Transformer` built from the delta is an
external capability (xi_rope), modelled as the function `transform`; the code
maps both endpoints of every stored interval through it with
`after_insert = false` and folds the results left to right. -/
def apply_delta (ranges : List Range) (transform : Nat → Bool → Nat) : List Range :=
  ranges.foldl (fun out r => applyDeltaPush out (transform r.1 false, transform r.2 false)) []

/-- Spec-side description of the output pass of `apply_delta` (from the spec's
words, for the refinement theorem): coalesce a list left to right, merging
each interval into the previously emitted one exactly when it starts where
that one ends. -/
def coalesceGo (cur : Range) : List Range → List Range
  | [] => [cur]
  | r :: rest => if cur.2 = r.1 then coalesceGo (cur.1, r.2) rest else cur :: coalesceGo r rest

/-- Spec-side left-to-right coalescing of a whole list. -/
def coalesceSpec : List Range → List Range
  | [] => []
  | r :: rest => coalesceGo r rest

/-- Spec-side description of `apply_delta` (from the spec's words, for the
refinement theorem): map each stored interval's endpoints through the
transform with prefer-after-insertion `false`, drop every interval that
collapsed to zero width, and coalesce contiguous neighbours left to right. -/
def applyDeltaSpec (ranges : List Range) (transform : Nat → Bool → Nat) : List Range :=
  coalesceSpec
    (((ranges.map fun r => (transform r.1 false, transform r.2 false))).filter
      fun r => r.1 ≠ r.2)

/-- A call to one of the two mutating interval operations. -/
inductive Op where
  | union (s e : Nat)
  | delete (s e : Nat)

/-- Apply one operation to a stored sequence. -/
def applyOp (ranges : List Range) : Op → List Range
  | .union s e => union_one_range ranges s e
  | .delete s e => delete_range ranges s e

/-- Run a sequence of operations starting from the empty set
(`IndexSet::new()`). -/
def applyOps (ops : List Op) : List Range :=
  ops.foldl applyOp []

/-- The `start` argument of an operation. -/
def Op.startArg : Op → Nat
  | .union s _ => s
  | .delete s _ => s

/-- The `end` argument of an operation. -/
def Op.endArg : Op → Nat
  | .union _ e => e
  | .delete _ e => e

/-- The data-structure invariant of `IndexSet` from the spec: the stored
intervals are strictly ordered, pairwise non-overlapping and non-touching
(every earlier interval ends strictly before every later one starts), and
non-empty. -/
def Invariant (l : List Range) : Prop :=
  (∀ r ∈ l, r.1 < r.2) ∧ l.Pairwise fun a b => a.2 < b.1

instance (l : List Range) : Decidable (Invariant l) :=
  inferInstanceAs (Decidable (_ ∧ _))

/-- Position `p` is covered by one of the stored intervals. -/
def covered (l : List Range) (p : Nat) : Prop :=
  ∃ r ∈ l, r.1 ≤ p ∧ p < r.2

instance (l : List Range) (p : Nat) : Decidable (covered l p) :=
  inferInstanceAs (Decidable (∃ r ∈ l, _ ∧ _))

/-! Sanity checks replaying the repository's own unit tests
(`empty_behavior`, `single_range_behavior`, `two_range_minus`,
`minus_one_range_double_ended_iter`, `unions`, `delete_range`). -/

example : consumeFwd 9 (minus_one_range [] 0 0) = [] := by decide
example : consumeFwd 9 (minus_one_range [] 3 5) = [(3, 5)] := by decide
example : consumeFwd 9 (minus_one_range [(3, 5)] 0 10) = [(0, 3), (5, 10)] := by decide
example : consumeFwd 9 (minus_one_range [(3, 5), (7, 9)] 4 10) = [(5, 7), (9, 10)] := by
  decide
example : consumeFwd 9 (minus_one_range [(3, 5), (7, 9)] 8 10) = [(9, 10)] := by decide
example : consumeFwd 9 (minus_one_range [(3, 5), (7, 9)] 0 10) = [(0, 3), (5, 7), (9, 10)] := by
  decide
example : consumeBack 9 (minus_one_range [(3, 5), (7, 9), (12, 15)] 4 13) =
    [(9, 12), (5, 7)] := by decide
example : consumeDirs [false, true, false, true] (minus_one_range [(3, 5), (7, 9), (12, 15)] 4 13) =
    [(9, 12), (5, 7)] := by decide
example : union_one_range [] 3 5 = [(3, 5)] := by decide
example : union_one_range [(3, 5)] 7 9 = [(3, 5), (7, 9)] := by decide
example : union_one_range [(3, 5), (7, 9)] 1 2 = [(1, 2), (3, 5), (7, 9)] := by decide
example : union_one_range [(1, 2), (3, 5), (7, 9)] 2 3 = [(1, 5), (7, 9)] := by decide
example : union_one_range [(1, 5), (7, 9)] 4 6 = [(1, 6), (7, 9)] := by decide
example : union_one_range [(3, 4), (5, 6), (7, 8), (9, 10), (11, 12)] 2 10 =
    [(2, 10), (11, 12)] := by decide
example : applyOps [.union 1 2, .union 4 6, .union 6 7, .union 8 8, .union 10 12,
    .union 13 14, .delete 5 11] = [(1, 2), (4, 5), (11, 12), (13, 14)] := by decide
example : delete_range [(1, 2), (4, 6)] 2 4 = [(1, 2), (4, 6)] := by decide
example : delete_range [(0, 10)] 4 6 = [(0, 4), (6, 10)] := by decide

/-! Basic facts about `Invariant`. -/

theorem invariant_nil : Invariant ([] : List Range) :=
  ⟨by simp, List.Pairwise.nil⟩

theorem invariant_cons_iff {r : Range} {l : List Range} :
    Invariant (r :: l) ↔ r.1 < r.2 ∧ (∀ y ∈ l, r.2 < y.1) ∧ Invariant l := by
  simp only [Invariant, List.pairwise_cons, List.forall_mem_cons]
  tauto

theorem Invariant.tail {r : Range} {l : List Range} (h : Invariant (r :: l)) :
    Invariant l :=
  (invariant_cons_iff.1 h).2.2

theorem Invariant.head_pos {r : Range} {l : List Range} (h : Invariant (r :: l)) :
    r.1 < r.2 :=
  (invariant_cons_iff.1 h).1

theorem Invariant.head_lt {r : Range} {l : List Range} (h : Invariant (r :: l)) :
    ∀ y ∈ l, r.2 < y.1 :=
  (invariant_cons_iff.1 h).2.1

theorem Invariant.mem_pos {l : List Range} (h : Invariant l) {r : Range} (hr : r ∈ l) :
    r.1 < r.2 :=
  h.1 r hr

theorem Invariant.sublist {l₁ l₂ : List Range} (hs : l₁.Sublist l₂) (h : Invariant l₂) :
    Invariant l₁ :=
  ⟨fun r hr => h.1 r (hs.mem hr), h.2.sublist hs⟩

theorem invariant_iff_getElem {l : List Range} :
    Invariant l ↔
      (∀ i (hi : i < l.length), (l.get ⟨i, hi⟩).1 < (l.get ⟨i, hi⟩).2) ∧
        (∀ i j (hi : i < l.length) (hj : j < l.length), i < j →
          (l.get ⟨i, hi⟩).2 < (l.get ⟨j, hj⟩).1) := by
  constructor
  · intro h
    refine ⟨fun i hi => h.1 _ (l.get_mem i hi), fun i j hi hj hij => ?_⟩
    have := List.pairwise_iff_getElem.1 h.2 i j hi hj hij
    simpa using this
  · intro h
    refine ⟨fun r hr => ?_, List.pairwise_iff_getElem.2 fun i j hi hj hij => h.2 i j hi hj hij⟩
    obtain ⟨i, hi, rfl⟩ := List.mem_iff_get.1 hr
    exact h.1 i i.2

theorem Invariant.mem_rel {l : List Range} (h : Invariant l) {r r' : Range}
    (hr : r ∈ l) (hr' : r' ∈ l) : r = r' ∨ r.2 < r'.1 ∨ r'.2 < r.1 := by
  obtain ⟨i, hi, rfl⟩ := List.mem_iff_get.1 hr
  obtain ⟨j, hj, rfl⟩ := List.mem_iff_get.1 hr'
  rcases Nat.lt_trichotomy i.1 j.1 with hij | hij | hij
  · exact Or.inr (Or.inl ((invariant_iff_getElem.1 h).2 i.1 j.1 i.2 j.2 hij))
  · left; congr 1; exact Fin.ext hij
  · exact Or.inr (Or.inr ((invariant_iff_getElem.1 h).2 j.1 i.1 j.2 i.2 hij))

/-- Under the invariant, interval ends are strictly increasing with the
index. -/
theorem Invariant.ends_lt {l : List Range} (h : Invariant l) {i j : Nat}
    (hij : i < j) (hj : j < l.length) :
    (l.get ⟨i, Nat.lt_trans hij hj⟩).2 < (l.get ⟨j, hj⟩).2 := by
  have h1 := (invariant_iff_getElem.1 h).2 i j (Nat.lt_trans hij hj) hj hij
  have h2 := (invariant_iff_getElem.1 h).1 j hj
  omega

/-! Unfolding equations. -/

theorem unionAbsorb_nil (e : Nat) (cur : Range) : unionAbsorb e cur [] = (cur, []) := rfl

theorem unionAbsorb_cons (e : Nat) (cur r : Range) (rest : List Range) :
    unionAbsorb e cur (r :: rest) =
      if e ≥ r.1 then unionAbsorb e r rest else (cur, r :: rest) := rfl

theorem union_nil (s e : Nat) : union_one_range [] s e = [(s, e)] := rfl

theorem union_cons (i1 i2 s e : Nat) (rest : List Range) :
    union_one_range ((i1, i2) :: rest) s e =
      if s > i2 then (i1, i2) :: union_one_range rest s e
      else if e < i1 then (s, e) :: (i1, i2) :: rest
      else (min s i1, max e (unionAbsorb e (i1, i2) rest).1.2) ::
        (unionAbsorb e (i1, i2) rest).2 := rfl

theorem covered_nil (p : Nat) : ¬ covered [] p := by simp [covered]

theorem covered_cons {r : Range} {l : List Range} {p : Nat} :
    covered (r :: l) p ↔ (r.1 ≤ p ∧ p < r.2) ∨ covered l p := by
  simp [covered]

/-! Facts about `unionAbsorb` and `union_one_range`. -/

theorem unionAbsorb_mem {e : Nat} : ∀ {l : List Range} {cur x : Range},
    x ∈ (unionAbsorb e cur l).2 → x ∈ l := by
  intro l
  induction l with
  | nil => intro cur x hx; rw [unionAbsorb_nil] at hx; simp at hx
  | cons r rest ih =>
    intro cur x hx
    rw [unionAbsorb_cons] at hx
    by_cases hge : e ≥ r.1
    · rw [if_pos hge] at hx
      exact List.mem_cons_of_mem _ (ih hx)
    · rw [if_neg hge] at hx
      exact hx

theorem unionAbsorb_length {e : Nat} : ∀ {l : List Range} {c : Range},
    (unionAbsorb e c l).2.length ≤ l.length := by
  intro l
  induction l with
  | nil => intro c; rw [unionAbsorb_nil]
  | cons r rest ih =>
    intro c
    rw [unionAbsorb_cons]
    by_cases hge : e ≥ r.1
    · rw [if_pos hge]
      exact Nat.le_trans ih (by simp)
    · rw [if_neg hge]

/-- What absorbing preserves: every surviving interval starts after the new
end and after the last absorbed interval's end, the survivors keep the
invariant shape, and absorbing only grows the anchor's end. -/
theorem unionAbsorb_props {e : Nat} : ∀ {l : List Range} {c : Range},
    (∀ y ∈ l, c.2 < y.1) → (∀ y ∈ l, y.1 < y.2) →
    l.Pairwise (fun a b : Range => a.2 < b.1) →
    (∀ y ∈ (unionAbsorb e c l).2, e < y.1 ∧ (unionAbsorb e c l).1.2 < y.1) ∧
      (unionAbsorb e c l).2.Pairwise (fun a b : Range => a.2 < b.1) ∧
      (∀ y ∈ (unionAbsorb e c l).2, y.1 < y.2) ∧
      c.2 ≤ (unionAbsorb e c l).1.2 := by
  intro l
  induction l with
  | nil =>
    intro c _ _ _
    rw [unionAbsorb_nil]
    simp
  | cons r rest ih =>
    intro c h1 h2 h3
    rw [unionAbsorb_cons]
    by_cases hge : e ≥ r.1
    · rw [if_pos hge]
      have hr1 : ∀ y ∈ rest, r.2 < y.1 := (List.pairwise_cons.1 h3).1
      have key := ih (c := r) hr1 (fun y hy => h2 y (List.mem_cons_of_mem _ hy))
        (List.pairwise_cons.1 h3).2
      refine ⟨key.1, key.2.1, key.2.2.1, ?_⟩
      have hc : c.2 < r.1 := h1 r (List.mem_cons_self _ _)
      have hr : r.1 < r.2 := h2 r (List.mem_cons_self _ _)
      have := key.2.2.2
      omega
    · rw [if_neg hge]
      refine ⟨?_, h3, h2, Nat.le_refl _⟩
      intro y hy
      rcases List.mem_cons.1 hy with rfl | hy'
      · exact ⟨by omega, h1 _ (List.mem_cons_self _ _)⟩
      · have ha := (List.pairwise_cons.1 h3).1 y hy'
        have hr := h2 r (List.mem_cons_self _ _)
        have hb := h1 y (List.mem_cons_of_mem _ hy')
        exact ⟨by omega, hb⟩

/-- Every interval in the union result starts strictly above any bound that is
below the new start and below every existing start. -/
theorem union_lb {s e b : Nat} : ∀ {l : List Range}, (∀ y ∈ l, b < y.1) → b < s →
    ∀ x ∈ union_one_range l s e, b < x.1 := by
  intro l
  induction l with
  | nil =>
    intro _ hbs x hx
    rw [union_nil] at hx
    simp at hx
    subst hx
    exact hbs
  | cons r rest ih =>
    obtain ⟨i1, i2⟩ := r
    intro hl hbs x hx
    rw [union_cons] at hx
    by_cases hc1 : s > i2
    · rw [if_pos hc1] at hx
      rcases List.mem_cons.1 hx with rfl | hx'
      · exact hl _ (List.mem_cons_self _ _)
      · exact ih (fun y hy => hl y (List.mem_cons_of_mem _ hy)) hbs x hx'
    · rw [if_neg hc1] at hx
      by_cases hc2 : e < i1
      · rw [if_pos hc2] at hx
        rcases List.mem_cons.1 hx with rfl | hx'
        · exact hbs
        · exact hl x hx'
      · rw [if_neg hc2] at hx
        rcases List.mem_cons.1 hx with rfl | hx'
        · have hh : b < i1 := hl (i1, i2) (List.mem_cons_self _ _)
          show b < min s i1
          omega
        · exact hl x (List.mem_cons_of_mem _ (unionAbsorb_mem hx'))

/-- `union_one_range` preserves the invariant for a non-degenerate range. -/
theorem union_inv {s e : Nat} (hse : s < e) : ∀ {l : List Range}, Invariant l →
    Invariant (union_one_range l s e) := by
  intro l
  induction l with
  | nil =>
    intro _
    rw [union_nil]
    exact invariant_cons_iff.2 ⟨hse, by simp, invariant_nil⟩
  | cons r rest ih =>
    obtain ⟨i1, i2⟩ := r
    intro hinv
    have h1 : i1 < i2 := hinv.head_pos
    have h2 : ∀ y ∈ rest, i2 < y.1 := hinv.head_lt
    have h3 : Invariant rest := hinv.tail
    rw [union_cons]
    by_cases hc1 : s > i2
    · rw [if_pos hc1]
      exact invariant_cons_iff.2 ⟨h1, union_lb h2 hc1, ih h3⟩
    · rw [if_neg hc1]
      by_cases hc2 : e < i1
      · rw [if_pos hc2]
        refine invariant_cons_iff.2 ⟨hse, ?_, hinv⟩
        intro y hy
        rcases List.mem_cons.1 hy with rfl | hy'
        · exact hc2
        · have := h2 y hy'
          show e < y.1
          omega
      · rw [if_neg hc2]
        have habs := unionAbsorb_props (e := e) (c := (i1, i2)) h2
          (fun y hy => h3.1 y hy) h3.2
        refine invariant_cons_iff.2 ⟨?_, ?_, habs.2.2.1, habs.2.1⟩
        · show min s i1 < max e (unionAbsorb e (i1, i2) rest).1.2
          omega
        · intro y hy
          have := habs.1 y hy
          show max e (unionAbsorb e (i1, i2) rest).1.2 < y.1
          omega

/-- Coverage bookkeeping for the absorb loop: the block from the anchor's
start to the grown end, together with the survivors, covers exactly what the
pre-absorb block and the whole scanned suffix covered. -/
theorem unionAbsorb_cov {e p : Nat} : ∀ {l : List Range} {c : Range},
    (∀ y ∈ l, c.2 < y.1) → (∀ y ∈ l, y.1 < y.2) →
    l.Pairwise (fun a b : Range => a.2 < b.1) →
    c.1 < c.2 → c.1 ≤ e →
    ((c.1 ≤ p ∧ p < max e (unionAbsorb e c l).1.2) ∨ covered (unionAbsorb e c l).2 p ↔
      (c.1 ≤ p ∧ p < max e c.2) ∨ covered l p) := by
  intro l
  induction l with
  | nil =>
    intro c _ _ _ _ _
    rw [unionAbsorb_nil]
  | cons r rest ih =>
    intro c h1 h2 h3 hc hce
    rw [unionAbsorb_cons]
    have hcr : c.2 < r.1 := h1 r (List.mem_cons_self _ _)
    have hrn : r.1 < r.2 := h2 r (List.mem_cons_self _ _)
    by_cases hge : e ≥ r.1
    · rw [if_pos hge]
      have hr1 : ∀ y ∈ rest, r.2 < y.1 := (List.pairwise_cons.1 h3).1
      have key := ih (c := r) hr1 (fun y hy => h2 y (List.mem_cons_of_mem _ hy))
        (List.pairwise_cons.1 h3).2 hrn hge
      have hmono : r.2 ≤ (unionAbsorb e r rest).1.2 :=
        (unionAbsorb_props hr1 (fun y hy => h2 y (List.mem_cons_of_mem _ hy))
          (List.pairwise_cons.1 h3).2).2.2.2
      rw [covered_cons]
      constructor
      · rintro (⟨hp1, hp2⟩ | hcov)
        · by_cases hpr : r.1 ≤ p
          · rcases key.1 (Or.inl ⟨hpr, hp2⟩) with ⟨_, hq⟩ | hq
            · by_cases hpr2 : p < r.2
              · exact Or.inr (Or.inl ⟨hpr, hpr2⟩)
              · exact Or.inl ⟨hp1, by omega⟩
            · exact Or.inr (Or.inr hq)
          · exact Or.inl ⟨hp1, by omega⟩
        · rcases key.1 (Or.inr hcov) with ⟨hq1, hq2⟩ | hq
          · by_cases hpr2 : p < r.2
            · exact Or.inr (Or.inl ⟨hq1, hpr2⟩)
            · exact Or.inl ⟨by omega, by omega⟩
          · exact Or.inr (Or.inr hq)
      · rintro (⟨hp1, hp2⟩ | ⟨hp1, hp2⟩ | hcov)
        · by_cases hpr : r.1 ≤ p
          · have hp2' : p < max e r.2 := by omega
            rcases key.2 (Or.inl ⟨hpr, hp2'⟩) with ⟨_, hq⟩ | hq
            · exact Or.inl ⟨hp1, hq⟩
            · exact Or.inr hq
          · exact Or.inl ⟨hp1, by omega⟩
        · have hp2' : p < max e r.2 := by omega
          rcases key.2 (Or.inl ⟨hp1, hp2'⟩) with ⟨_, hq⟩ | hq
          · exact Or.inl ⟨by omega, hq⟩
          · exact Or.inr hq
        · rcases key.2 (Or.inr hcov) with ⟨hq1, hq2⟩ | hq
          · exact Or.inl ⟨by omega, hq2⟩
          · exact Or.inr hq
    · rw [if_neg hge]

/-- Coverage semantics of `union_one_range` on a valid set: the result covers
exactly the old coverage plus `[s, e)`. -/
theorem union_covered {s e p : Nat} : ∀ {l : List Range}, Invariant l →
    (covered (union_one_range l s e) p ↔ covered l p ∨ (s ≤ p ∧ p < e)) := by
  intro l
  induction l with
  | nil =>
    intro _
    rw [union_nil]
    simp [covered]
  | cons r rest ih =>
    obtain ⟨i1, i2⟩ := r
    intro hinv
    have h1 : i1 < i2 := hinv.head_pos
    have h2 : ∀ y ∈ rest, i2 < y.1 := hinv.head_lt
    have h3 : Invariant rest := hinv.tail
    rw [union_cons]
    by_cases hc1 : s > i2
    · rw [if_pos hc1]
      rw [covered_cons, covered_cons, ih h3]
      tauto
    · rw [if_neg hc1]
      by_cases hc2 : e < i1
      · rw [if_pos hc2]
        rw [covered_cons, covered_cons]
        dsimp only
        tauto
      · rw [if_neg hc2]
        have habs := unionAbsorb_cov (e := e) (p := p) (c := (i1, i2)) h2
          (fun y hy => h3.1 y hy) h3.2 h1 (by omega)
        rw [covered_cons, covered_cons]
        constructor
        · rintro (⟨hp1, hp2⟩ | hcov)
          · by_cases hpr : i1 ≤ p
            · rcases habs.1 (Or.inl ⟨hpr, hp2⟩) with ⟨hq1, hq2⟩ | hq
              · by_cases hpi : p < i2
                · exact Or.inl (Or.inl ⟨hq1, hpi⟩)
                · exact Or.inr ⟨by omega, by omega⟩
              · exact Or.inl (Or.inr hq)
            · exact Or.inr ⟨by omega, by omega⟩
          · rcases habs.1 (Or.inr hcov) with ⟨hq1, hq2⟩ | hq
            · by_cases hpi : p < i2
              · exact Or.inl (Or.inl ⟨hq1, hpi⟩)
              · exact Or.inr ⟨by omega, by omega⟩
            · exact Or.inl (Or.inr hq)
        · rintro ((⟨hp1, hp2⟩ | hcov) | ⟨hp1, hp2⟩)
          · have := habs.2 (Or.inl ⟨hp1, by omega⟩)
            rcases this with ⟨hq1, hq2⟩ | hq
            · exact Or.inl ⟨by omega, hq2⟩
            · exact Or.inr hq
          · rcases habs.2 (Or.inr hcov) with ⟨hq1, hq2⟩ | hq
            · exact Or.inl ⟨by omega, hq2⟩
            · exact Or.inr hq
          · left
            constructor
            · omega
            · show p < max e (unionAbsorb e (i1, i2) rest).1.2
              omega

/-- On a valid set, a fully covered non-empty range lies inside a single
stored interval. -/
theorem exists_container {l : List Range} (hinv : Invariant l) {s e : Nat} (hse : s < e)
    (hcov : ∀ p, s ≤ p → p < e → covered l p) : ∃ r ∈ l, r.1 ≤ s ∧ e ≤ r.2 := by
  obtain ⟨r, hr, hr1, hr2⟩ := hcov s (Nat.le_refl s) hse
  refine ⟨r, hr, hr1, ?_⟩
  by_contra hlt
  have h2e : r.2 < e := by omega
  obtain ⟨r', hr', hr'1, hr'2⟩ := hcov r.2 (by omega) h2e
  rcases hinv.mem_rel hr hr' with rfl | h | h
  · omega
  · omega
  · omega

/-- The absorb loop stops immediately when the next interval (if any) starts
after the new end. -/
theorem unionAbsorb_stop {e : Nat} {cur : Range} {l : List Range}
    (h : ∀ r, l.head? = some r → e < r.1) : unionAbsorb e cur l = (cur, l) := by
  cases l with
  | nil => rfl
  | cons r rest =>
    rw [unionAbsorb_cons, if_neg]
    have := h r rfl
    omega

/-- Unioning a range already contained in one stored interval of a valid set
changes nothing. -/
theorem union_container_id {s e : Nat} (hse : s ≤ e) : ∀ {l : List Range}, Invariant l →
    ∀ {x y : Nat}, (x, y) ∈ l → x ≤ s → e ≤ y → union_one_range l s e = l := by
  intro l
  induction l with
  | nil => intro _ x y hm; simp at hm
  | cons r rest ih =>
    obtain ⟨i1, i2⟩ := r
    intro hinv x y hm hxs hey
    have h1 : i1 < i2 := hinv.head_pos
    have h2 : ∀ z ∈ rest, i2 < z.1 := hinv.head_lt
    rw [union_cons]
    rcases List.mem_cons.1 hm with heq | hm'
    · have hx : x = i1 := congrArg Prod.fst heq
      have hy : y = i2 := congrArg Prod.snd heq
      rw [if_neg (by omega), if_neg (by omega)]
      rw [unionAbsorb_stop]
      · have hmin : min s i1 = i1 := by omega
        have hmax : max e i2 = i2 := by omega
        show (min s i1, max e i2) :: rest = (i1, i2) :: rest
        rw [hmin, hmax]
      · intro r hr
        have hmem : r ∈ rest := by
          cases rest with
          | nil => simp at hr
          | cons a tl =>
            simp at hr
            subst hr
            exact List.mem_cons_self _ _
        have := h2 r hmem
        omega
    · have hx1 : i2 < x := h2 _ hm'
      rw [if_pos (by omega)]
      rw [ih hinv.tail hm' hxs hey]

/-- `union_one_range` with an empty range `[s, s)` on a valid set: a no-op
when `s` touches or lies inside a stored interval, and otherwise inserts the
empty interval `(s, s)` at its sorted position. -/
theorem union_point_spec {s : Nat} : ∀ {l : List Range}, Invariant l →
    ((∃ r ∈ l, r.1 ≤ s ∧ s ≤ r.2) → union_one_range l s s = l) ∧
      (¬ (∃ r ∈ l, r.1 ≤ s ∧ s ≤ r.2) →
        union_one_range l s s =
          l.takeWhile (fun r => r.2 < s) ++ (s, s) :: l.dropWhile (fun r => r.2 < s)) := by
  intro l
  induction l with
  | nil =>
    intro _
    refine ⟨fun h => by simp at h, fun _ => ?_⟩
    rw [union_nil]
    rfl
  | cons r rest ih =>
    obtain ⟨i1, i2⟩ := r
    intro hinv
    have h1 : i1 < i2 := hinv.head_pos
    have h2 : ∀ z ∈ rest, i2 < z.1 := hinv.head_lt
    constructor
    · rintro ⟨r, hr, hr1, hr2⟩
      exact union_container_id (Nat.le_refl s) hinv (by cases r; exact hr) hr1 hr2
    · intro hno
      rw [union_cons]
      by_cases hc1 : s > i2
      · rw [if_pos hc1]
        have hc1' : (i1, i2).2 < s := hc1
        rw [List.takeWhile_cons, List.dropWhile_cons]
        simp [hc1']
        have hrec := (ih hinv.tail).2 (by
          intro ⟨r, hr, hr1, hr2⟩
          exact hno ⟨r, List.mem_cons_of_mem _ hr, hr1, hr2⟩)
        rw [hrec]
      · have hni : ¬ (i1 ≤ s ∧ s ≤ i2) := fun hc => hno ⟨(i1, i2), List.mem_cons_self _ _, hc⟩
        have hsi : s < i1 := by omega
        rw [if_neg hc1, if_pos hsi]
        have hc1' : ¬ ((i1, i2).2 < s) := hc1
        rw [List.takeWhile_cons, List.dropWhile_cons]
        simp [hc1']

/-- A degenerate union that already inserted `(s, s)` into a gap is stable
under repeating the call. -/
theorem union_point_fixed {s : Nat} : ∀ {T : List Range} {D : List Range},
    (∀ r ∈ T, r.2 < s) → (∀ r, D.head? = some r → s < r.1) →
    union_one_range (T ++ (s, s) :: D) s s = T ++ (s, s) :: D := by
  intro T
  induction T with
  | nil =>
    intro D _ hD
    rw [List.nil_append, union_cons]
    rw [if_neg (by omega), if_neg (by omega)]
    rw [unionAbsorb_stop hD]
    show (min s s, max s s) :: D = (s, s) :: D
    simp
  | cons t T' ih =>
    obtain ⟨t1, t2⟩ := t
    intro D hT hD
    have ht : t2 < s := hT (t1, t2) (List.mem_cons_self _ _)
    rw [List.cons_append, union_cons, if_pos (by omega)]
    rw [ih (fun r hr => hT r (List.mem_cons_of_mem _ hr)) hD]

/-- Any scanned interval whose start the new end reaches is absorbed: its end
is accounted for in the grown anchor end. -/
theorem unionAbsorb_mem_end {e : Nat} : ∀ {l : List Range} {c : Range},
    (∀ y ∈ l, c.2 < y.1) → (∀ y ∈ l, y.1 < y.2) →
    l.Pairwise (fun a b : Range => a.2 < b.1) →
    ∀ {a b : Nat}, (a, b) ∈ l → a ≤ e → b ≤ (unionAbsorb e c l).1.2 := by
  intro l
  induction l with
  | nil => intro c _ _ _ a b hm; simp at hm
  | cons r rest ih =>
    intro c h1 h2 h3 a b hm hae
    rw [unionAbsorb_cons]
    have hr1 : ∀ y ∈ rest, r.2 < y.1 := (List.pairwise_cons.1 h3).1
    have hrn : r.1 < r.2 := h2 r (List.mem_cons_self _ _)
    by_cases hge : e ≥ r.1
    · rw [if_pos hge]
      rcases List.mem_cons.1 hm with heq | hm'
      · have hb : b = r.2 := congrArg Prod.snd heq
        have := (unionAbsorb_props (e := e) (c := r) hr1
          (fun y hy => h2 y (List.mem_cons_of_mem _ hy)) (List.pairwise_cons.1 h3).2).2.2.2
        omega
      · exact ih (c := r) hr1 (fun y hy => h2 y (List.mem_cons_of_mem _ hy))
          (List.pairwise_cons.1 h3).2 hm' hae
    · rw [if_neg hge]
      rcases List.mem_cons.1 hm with heq | hm'
      · have ha : a = r.1 := congrArg Prod.fst heq
        omega
      · have := hr1 (a, b) hm'
        omega

/-! Facts about `delete_range` and its helpers. -/

theorem remove_n_at_sublist {α : Type} (v : List α) (i n : Nat) :
    (remove_n_at v i n).Sublist v := by
  have h1 : (v.drop (i + n)).Sublist (v.drop i) := by
    rw [← List.drop_drop]
    exact List.drop_sublist _ _
  have h2 : (v.take i ++ v.drop (i + n)).Sublist (v.take i ++ v.drop i) :=
    h1.append_left _
  rw [List.take_append_drop] at h2
  exact h2

theorem deleteFinish_inv {ranges : List Range} {df : Option Nat} {dl : Nat}
    (h : Invariant ranges) : Invariant (deleteFinish ranges df dl) := by
  cases df with
  | none => exact h
  | some d => exact Invariant.sublist (remove_n_at_sublist _ _ _) h

theorem invariant_append_iff {l₁ l₂ : List Range} :
    Invariant (l₁ ++ l₂) ↔
      Invariant l₁ ∧ Invariant l₂ ∧ ∀ x ∈ l₁, ∀ y ∈ l₂, x.2 < y.1 := by
  simp only [Invariant, List.pairwise_append, List.forall_mem_append]
  tauto

theorem set_insert_split : ∀ (l : List Range) (ix : Nat) (v w : Range), ix < l.length →
    (l.set ix v).insertIdx (ix + 1) w = l.take ix ++ v :: w :: l.drop (ix + 1)
  | [], ix, v, w, h => by simp at h
  | x :: tl, 0, v, w, _ => by
    simp [List.insertIdx_succ_cons, List.insertIdx_zero]
  | x :: tl, ix + 1, v, w, h => by
    have := set_insert_split tl ix v w (by simpa using h)
    simp only [List.set_cons_succ, List.insertIdx_succ_cons, this, List.take_succ_cons,
      List.drop_succ_cons, List.cons_append]

theorem set_split : ∀ (l : List Range) (ix : Nat) (v : Range), ix < l.length →
    l.set ix v = l.take ix ++ v :: l.drop (ix + 1)
  | [], ix, v, h => by simp at h
  | x :: tl, 0, v, _ => by simp
  | x :: tl, ix + 1, v, h => by
    have := set_split tl ix v (by simpa using h)
    simp only [List.set_cons_succ, this, List.take_succ_cons, List.drop_succ_cons,
      List.cons_append]

theorem list_split_at {l : List Range} {ix : Nat} (h : ix < l.length) :
    l = l.take ix ++ l.get ⟨ix, h⟩ :: l.drop (ix + 1) := by
  conv_lhs => rw [← List.take_append_drop ix l]
  rw [List.drop_eq_getElem_cons h]
  simp

/-- Shrinking one stored interval (keeping it non-empty and inside its old
bounds) preserves the invariant. -/
theorem inv_set_shrink {l : List Range} {ix : Nat} (h : ix < l.length) (hinv : Invariant l)
    {a b : Nat} (ha : (l.get ⟨ix, h⟩).1 ≤ a) (hab : a < b) (hb : b ≤ (l.get ⟨ix, h⟩).2) :
    Invariant (l.set ix (a, b)) := by
  rw [set_split l ix (a, b) h]
  rw [list_split_at h] at hinv
  rw [invariant_append_iff] at hinv ⊢
  obtain ⟨hpre, hmid, hcross⟩ := hinv
  rw [invariant_cons_iff] at hmid ⊢
  refine ⟨hpre, ⟨hab, ?_, hmid.2.2⟩, ?_⟩
  · intro y hy
    have := hmid.2.1 y hy
    omega
  · intro x hx y hy
    rcases List.mem_cons.1 hy with rfl | hy'
    · have := hcross x hx _ (List.mem_cons_self _ _)
      show x.2 < a
      omega
    · exact hcross x hx y (List.mem_cons_of_mem _ hy')

/-- Splitting one stored interval around a deleted middle piece preserves the
invariant (the two parts keep a gap because the deleted range is
non-degenerate). -/
theorem inv_split_insert {l : List Range} {ix : Nat} (h : ix < l.length) (hinv : Invariant l)
    {s e : Nat} (ha : (l.get ⟨ix, h⟩).1 < s) (hse : s < e) (hb : e < (l.get ⟨ix, h⟩).2) :
    Invariant ((l.set ix ((l.get ⟨ix, h⟩).1, s)).insertIdx (ix + 1) (e, (l.get ⟨ix, h⟩).2)) := by
  rw [set_insert_split l ix _ _ h]
  rw [list_split_at h] at hinv
  rw [invariant_append_iff] at hinv ⊢
  obtain ⟨hpre, hmid, hcross⟩ := hinv
  rw [invariant_cons_iff] at hmid
  refine ⟨hpre, ?_, ?_⟩
  · rw [invariant_cons_iff]
    refine ⟨ha, ?_, ?_⟩
    · intro y hy
      rcases List.mem_cons.1 hy with rfl | hy'
      · exact hse
      · have := hmid.2.1 y hy'
        show s < y.1
        omega
    · rw [invariant_cons_iff]
      refine ⟨hb, fun y hy => ?_, hmid.2.2⟩
      exact hmid.2.1 y hy
  · intro x hx y hy
    have hxr := hcross x hx _ (List.mem_cons_self _ _)
    rcases List.mem_cons.1 hy with rfl | hy'
    · exact hxr
    · rcases List.mem_cons.1 hy' with rfl | hy''
      · show x.2 < e
        omega
      · exact hcross x hx y (List.mem_cons_of_mem _ hy'')

theorem getD_get {l : List Range} {i : Nat} (h : i < l.length) :
    l.getD i (0, 0) = l.get ⟨i, h⟩ := by
  rw [List.getD_eq_getElem?_getD, List.getElem?_eq_getElem h]
  rfl

theorem get_set_ne {l : List Range} {i k : Nat} {v : Range} (hne : i ≠ k)
    (hk : k < (l.set i v).length) :
    (l.set i v).get ⟨k, hk⟩ = l.get ⟨k, by simpa using hk⟩ := by
  simp [List.getElem_set_ne hne]

theorem bsLoop_zero (f : Nat → Ordering) (left right : Nat) :
    bsLoop f 0 left right = .inr left := rfl

theorem bsLoop_succ (f : Nat → Ordering) (fuel left right : Nat) :
    bsLoop f (fuel + 1) left right =
      if left < right then
        match f (left + (right - left) / 2) with
        | .lt => bsLoop f fuel (left + (right - left) / 2 + 1) right
        | .gt => bsLoop f fuel left (left + (right - left) / 2)
        | .eq => .inl (left + (right - left) / 2)
      else .inr left := rfl

/-- Every position at or beyond the index returned by the binary search on
strictly increasing ends has its end at or above the search key. -/
theorem bsLoop_ge {l : List Range} {t : Nat}
    (hmono : ∀ i j, i < j → j < l.length → (l.getD i (0, 0)).2 < (l.getD j (0, 0)).2) :
    ∀ fuel left right, right - left < fuel → right ≤ l.length →
    (∀ k, k < l.length → right ≤ k → t ≤ (l.getD k (0, 0)).2) →
    ∀ k, k < l.length →
      sumIdx (bsLoop (fun i => compare (l.getD i (0, 0)).2 t) fuel left right) ≤ k →
      t ≤ (l.getD k (0, 0)).2 := by
  intro fuel
  induction fuel with
  | zero =>
    intro left right hf
    exact absurd hf (by omega)
  | succ fuel ih =>
    intro left right hf hrl hupper k hklen hix
    rw [bsLoop_succ] at hix
    by_cases hlr : left < right
    · rw [if_pos hlr] at hix
      have hmidlt : left + (right - left) / 2 < right := by omega
      cases hcomp : compare (l.getD (left + (right - left) / 2) (0, 0)).2 t with
      | lt =>
        simp only [hcomp] at hix
        exact ih (left + (right - left) / 2 + 1) right (by omega) hrl hupper k hklen hix
      | gt =>
        simp only [hcomp] at hix
        refine ih left (left + (right - left) / 2) (by omega) (by omega) ?_ k hklen hix
        intro k' hk' hge
        have hgt : t < (l.getD (left + (right - left) / 2) (0, 0)).2 :=
          Nat.compare_eq_gt.1 hcomp
        rcases Nat.eq_or_lt_of_le hge with heq | hlt
        · rw [← heq]
          omega
        · have := hmono _ _ hlt hk'
          omega
      | eq =>
        simp only [hcomp, sumIdx] at hix
        have heq : (l.getD (left + (right - left) / 2) (0, 0)).2 = t :=
          Nat.compare_eq_eq.1 hcomp
        rcases Nat.eq_or_lt_of_le hix with heqk | hltk
        · rw [← heqk]
          omega
        · have := hmono _ _ hltk hklen
          omega
    · rw [if_neg hlr] at hix
      simp only [sumIdx] at hix
      exact hupper k hklen (by omega)

theorem invariant_getD_mono {l : List Range} (hinv : Invariant l) :
    ∀ i j, i < j → j < l.length → (l.getD i (0, 0)).2 < (l.getD j (0, 0)).2 := by
  intro i j hij hj
  rw [getD_get (Nat.lt_trans hij hj), getD_get hj]
  exact hinv.ends_lt hij hj

theorem deleteLoop_zero (s e : Nat) (ranges : List Range) (ix : Nat) (df : Option Nat)
    (dl : Nat) : deleteLoop s e 0 ranges ix df dl = deleteFinish ranges df dl := rfl

theorem deleteLoop_succ (s e fuel : Nat) (ranges : List Range) (ix : Nat) (df : Option Nat)
    (dl : Nat) :
    deleteLoop s e (fuel + 1) ranges ix df dl =
      if ix < ranges.length then
        if (ranges.getD ix (0, 0)).1 ≥ e then deleteFinish ranges df dl
        else if (ranges.getD ix (0, 0)).1 < s then
          if (ranges.getD ix (0, 0)).2 > e then
            deleteFinish
              ((ranges.set ix ((ranges.getD ix (0, 0)).1, s)).insertIdx (ix + 1)
                (e, (ranges.getD ix (0, 0)).2)) df dl
          else deleteLoop s e fuel (ranges.set ix ((ranges.getD ix (0, 0)).1, s)) (ix + 1) df dl
        else if (ranges.getD ix (0, 0)).2 > e then
          deleteLoop s e fuel (ranges.set ix (e, (ranges.getD ix (0, 0)).2)) (ix + 1) df dl
        else
          deleteLoop s e fuel ranges (ix + 1)
            (match df with | none => some ix | some d => some d) (dl + 1)
      else deleteFinish ranges df dl := rfl

/-- The delete loop preserves the invariant for a non-degenerate deleted
range, provided every interval from the current index on ends at or after
`s` (which the binary search establishes). -/
theorem deleteLoop_inv {s e : Nat} (hse : s < e) :
    ∀ fuel (ranges : List Range) ix df dl, Invariant ranges →
    (∀ k (hk : k < ranges.length), ix ≤ k → s ≤ (ranges.get ⟨k, hk⟩).2) →
    Invariant (deleteLoop s e fuel ranges ix df dl) := by
  intro fuel
  induction fuel with
  | zero =>
    intro ranges ix df dl hinv _
    rw [deleteLoop_zero]
    exact deleteFinish_inv hinv
  | succ fuel ih =>
    intro ranges ix df dl hinv hsuf
    rw [deleteLoop_succ]
    by_cases hix : ix < ranges.length
    · rw [if_pos hix]
      have hgd : ranges.getD ix (0, 0) = ranges.get ⟨ix, hix⟩ := getD_get hix
      by_cases h1 : (ranges.getD ix (0, 0)).1 ≥ e
      · rw [if_pos h1]
        exact deleteFinish_inv hinv
      · rw [if_neg h1]
        by_cases h2 : (ranges.getD ix (0, 0)).1 < s
        · rw [if_pos h2]
          by_cases h3 : (ranges.getD ix (0, 0)).2 > e
          · rw [if_pos h3]
            apply deleteFinish_inv
            rw [hgd]
            exact inv_split_insert hix hinv (by rw [hgd] at h2; exact h2) hse
              (by rw [hgd] at h3; exact h3)
          · rw [if_neg h3]
            apply ih
            · rw [hgd]
              exact inv_set_shrink hix hinv (Nat.le_refl _) (by rw [hgd] at h2; exact h2)
                (hsuf ix hix (Nat.le_refl _))
            · intro k hk hkge
              have hklen : k < ranges.length := by simpa using hk
              rw [get_set_ne (by omega) hk]
              exact hsuf k hklen (by omega)
        · rw [if_neg h2]
          by_cases h3 : (ranges.getD ix (0, 0)).2 > e
          · rw [if_pos h3]
            apply ih
            · rw [hgd]
              refine inv_set_shrink hix hinv ?_ (by rw [hgd] at h3; omega) (Nat.le_refl _)
              rw [hgd] at h1
              omega
            · intro k hk hkge
              have hklen : k < ranges.length := by simpa using hk
              rw [get_set_ne (by omega) hk]
              exact hsuf k hklen (by omega)
          · rw [if_neg h3]
            apply ih _ _ _ _ hinv
            intro k hk hkge
            exact hsuf k hk (by omega)
    · rw [if_neg hix]
      exact deleteFinish_inv hinv

/-- `delete_range` preserves the invariant for a non-degenerate range. -/
theorem delete_inv {l : List Range} {s e : Nat} (hinv : Invariant l) (hse : s < e) :
    Invariant (delete_range l s e) := by
  show Invariant (deleteLoop s e (l.length + 1) l
    (sumIdx (bsLoop (fun i => compare (l.getD i (0, 0)).2 s) (l.length + 1) 0 l.length))
    none 0)
  apply deleteLoop_inv hse _ _ _ _ _ hinv
  intro k hk hkge
  have := bsLoop_ge (t := s) (invariant_getD_mono hinv) (l.length + 1) 0 l.length
    (by omega) (Nat.le_refl _) (fun k' hk' hge => absurd hk' (by omega)) k hk hkge
  rw [getD_get hk] at this
  exact this

/-! Facts about `minus_one_range` and `MinusIter`. -/

theorem nextIter_nil (s e : Nat) :
    nextIter [] s e = if s < e then some ((s, e), ⟨[], e, e⟩) else none := rfl

theorem nextIter_cons (a b s e : Nat) (rest : List Range) :
    nextIter ((a, b) :: rest) s e =
      if s < e then
        if e ≤ a then some ((s, e), ⟨(a, b) :: rest, e, e⟩)
        else if a > s then some ((s, a), ⟨rest, b, e⟩)
        else nextIter rest b e
      else none := rfl

theorem nextIter_stop {l : List Range} {s e : Nat} (h : ¬ s < e) : nextIter l s e = none := by
  cases l with
  | nil => rw [nextIter_nil, if_neg h]
  | cons r rest =>
    obtain ⟨a, b⟩ := r
    rw [nextIter_cons, if_neg h]

theorem minusList_nil (s e : Nat) :
    minusList [] s e = if s < e then [(s, e)] else [] := rfl

theorem minusList_cons (a b s e : Nat) (rest : List Range) :
    minusList ((a, b) :: rest) s e =
      if s < e then
        if e ≤ a then [(s, e)]
        else if a > s then (s, a) :: minusList rest b e
        else minusList rest b e
      else [] := rfl

theorem minusList_stop {l : List Range} {s e : Nat} (h : ¬ s < e) : minusList l s e = [] := by
  cases l with
  | nil => rw [minusList_nil, if_neg h]
  | cons r rest =>
    obtain ⟨a, b⟩ := r
    rw [minusList_cons, if_neg h]

theorem nextBackIter_succ (fuel : Nat) (l : List Range) (s e : Nat) :
    nextBackIter (fuel + 1) l s e =
      if s < e then
        match l.getLast? with
        | none => some ((s, e), ⟨l, e, e⟩)
        | some (a, b) =>
          if b ≤ s then some ((s, e), ⟨l, e, e⟩)
          else if e > b then some ((b, e), ⟨l.dropLast, s, a⟩)
          else nextBackIter fuel l.dropLast s a
      else none := rfl

theorem dropLeading_sublist (s : Nat) : ∀ l : List Range, (dropLeading s l).Sublist l := by
  intro l
  induction l with
  | nil => exact List.Sublist.refl _
  | cons r rest ih =>
    rw [dropLeading]
    by_cases h : s ≥ r.2
    · rw [if_pos h]
      exact ih.cons r
    · rw [if_neg h]

theorem dropLeading_ends {s : Nat} : ∀ {l : List Range}, Invariant l →
    ∀ r ∈ dropLeading s l, s < r.2 := by
  intro l
  induction l with
  | nil => intro _ r hr; simp [dropLeading] at hr
  | cons x rest ih =>
    intro hinv r hr
    rw [dropLeading] at hr
    by_cases h : s ≥ x.2
    · rw [if_pos h] at hr
      exact ih hinv.tail r hr
    · rw [if_neg h] at hr
      rcases List.mem_cons.1 hr with rfl | hr'
      · omega
      · have h1 := hinv.head_lt r hr'
        have h2 := hinv.tail.mem_pos hr'
        omega

theorem dropLeading_covered {s p : Nat} (hp : s ≤ p) : ∀ {l : List Range},
    covered (dropLeading s l) p ↔ covered l p := by
  intro l
  induction l with
  | nil => rw [dropLeading]
  | cons x rest ih =>
    rw [dropLeading]
    by_cases h : s ≥ x.2
    · rw [if_pos h, ih, covered_cons]
      constructor
      · exact Or.inr
      · rintro (⟨h1, h2⟩ | hc)
        · omega
        · exact hc
    · rw [if_neg h]

/-- The forward gap list of a valid iterator state is itself a valid interval
sequence, and all its gaps start at or after the cursor. -/
theorem minusList_inv_lb : ∀ {l : List Range} {s e : Nat}, Invariant l →
    (∀ r ∈ l, s < r.2) →
    Invariant (minusList l s e) ∧ ∀ g ∈ minusList l s e, s ≤ g.1 := by
  intro l
  induction l with
  | nil =>
    intro s e _ _
    rw [minusList_nil]
    by_cases hse : s < e
    · rw [if_pos hse]
      refine ⟨invariant_cons_iff.2 ⟨hse, by simp, invariant_nil⟩, ?_⟩
      intro g hg
      rcases List.mem_cons.1 hg with rfl | hg'
      · exact Nat.le_refl s
      · simp at hg'
    · rw [if_neg hse]
      exact ⟨invariant_nil, by simp⟩
  | cons x rest ih =>
    obtain ⟨a, b⟩ := x
    intro s e hinv hpre
    have hab : a < b := hinv.head_pos
    have hlt : ∀ y ∈ rest, b < y.1 := hinv.head_lt
    have hsb : s < b := hpre (a, b) (List.mem_cons_self _ _)
    have hpre' : ∀ r ∈ rest, b < r.2 := fun r hr => by
      have := hlt r hr
      have := hinv.tail.mem_pos hr
      omega
    have ihr := ih (s := b) (e := e) hinv.tail hpre'
    rw [minusList_cons]
    by_cases hse : s < e
    · rw [if_pos hse]
      by_cases hea : e ≤ a
      · rw [if_pos hea]
        refine ⟨invariant_cons_iff.2 ⟨hse, by simp, invariant_nil⟩, ?_⟩
        intro g hg
        rcases List.mem_cons.1 hg with rfl | hg'
        · exact Nat.le_refl s
        · simp at hg'
      · rw [if_neg hea]
        by_cases has : a > s
        · rw [if_pos has]
          constructor
          · refine invariant_cons_iff.2 ⟨has, ?_, ihr.1⟩
            intro g hg
            have := ihr.2 g hg
            show a < g.1
            omega
          · intro g hg
            rcases List.mem_cons.1 hg with rfl | hg'
            · exact Nat.le_refl s
            · have := ihr.2 g hg'
              omega
        · rw [if_neg has]
          refine ⟨ihr.1, fun g hg => ?_⟩
          have := ihr.2 g hg
          omega
    · rw [if_neg hse]
      exact ⟨invariant_nil, by simp⟩

/-- Membership semantics of the forward gap list: it covers exactly the
window positions not covered by the (remaining) stored intervals. -/
theorem minusList_mem_iff {p : Nat} : ∀ {l : List Range} {s e : Nat}, Invariant l →
    (∀ r ∈ l, s < r.2) →
    (covered (minusList l s e) p ↔ (s ≤ p ∧ p < e ∧ ¬ covered l p)) := by
  intro l
  induction l with
  | nil =>
    intro s e _ _
    rw [minusList_nil]
    by_cases hse : s < e
    · rw [if_pos hse, covered_cons]
      simp [covered]
    · rw [if_neg hse]
      simp [covered]
      omega
  | cons x rest ih =>
    obtain ⟨a, b⟩ := x
    intro s e hinv hpre
    have hab : a < b := hinv.head_pos
    have hlt : ∀ y ∈ rest, b < y.1 := hinv.head_lt
    have hsb : s < b := hpre (a, b) (List.mem_cons_self _ _)
    have hpre' : ∀ r ∈ rest, b < r.2 := fun r hr => by
      have := hlt r hr
      have := hinv.tail.mem_pos hr
      omega
    have ihr := ih (s := b) (e := e) hinv.tail hpre'
    rw [minusList_cons, covered_cons]
    by_cases hse : s < e
    · rw [if_pos hse]
      by_cases hea : e ≤ a
      · rw [if_pos hea, covered_cons]
        constructor
        · rintro (⟨h1, h2⟩ | hc)
          · refine ⟨h1, h2, ?_⟩
            rintro (⟨h3, h4⟩ | ⟨r, hr, hr1, hr2⟩)
            · omega
            · have := hlt r hr
              omega
          · exact absurd hc (covered_nil p)
        · rintro ⟨h1, h2, _⟩
          exact Or.inl ⟨h1, h2⟩
      · rw [if_neg hea]
        by_cases has : a > s
        · rw [if_pos has, covered_cons, ihr]
          constructor
          · rintro (⟨h1, h2⟩ | ⟨h1, h2, h3⟩)
            · refine ⟨h1, by omega, ?_⟩
              rintro (⟨h3, h4⟩ | ⟨r, hr, hr1, hr2⟩)
              · omega
              · have := hlt r hr
                omega
            · refine ⟨by omega, h2, ?_⟩
              rintro (⟨h4, h5⟩ | hc)
              · omega
              · exact h3 hc
          · rintro ⟨h1, h2, h3⟩
            by_cases hpa : p < a
            · exact Or.inl ⟨h1, hpa⟩
            · refine Or.inr ⟨?_, h2, fun hc => h3 (Or.inr hc)⟩
              by_cases hpb : p < b
              · exact absurd (Or.inl ⟨by omega, hpb⟩) h3
              · omega
        · rw [if_neg has, ihr]
          constructor
          · rintro ⟨h1, h2, h3⟩
            refine ⟨by omega, h2, ?_⟩
            rintro (⟨h4, h5⟩ | hc)
            · omega
            · exact h3 hc
          · rintro ⟨h1, h2, h3⟩
            refine ⟨?_, h2, fun hc => h3 (Or.inr hc)⟩
            by_cases hpb : p < b
            · exact absurd (Or.inl ⟨by omega, hpb⟩) h3
            · omega
    · rw [if_neg hse]
      rw [show covered ([] : List Range) p ↔ False by simp [covered]]
      constructor
      · intro h
        exact h.elim
      · rintro ⟨h1, h2, _⟩
        omega

theorem minusList_of_next_none : ∀ {l : List Range} {s e : Nat},
    nextIter l s e = none → minusList l s e = [] := by
  intro l
  induction l with
  | nil =>
    intro s e h
    rw [nextIter_nil] at h
    rw [minusList_nil]
    by_cases hse : s < e
    · rw [if_pos hse] at h
      cases h
    · rw [if_neg hse]
  | cons x rest ih =>
    obtain ⟨a, b⟩ := x
    intro s e h
    rw [nextIter_cons] at h
    rw [minusList_cons]
    by_cases hse : s < e
    · rw [if_pos hse] at h
      rw [if_pos hse]
      by_cases hea : e ≤ a
      · rw [if_pos hea] at h
        cases h
      · rw [if_neg hea] at h
        rw [if_neg hea]
        by_cases has : a > s
        · rw [if_pos has] at h
          cases h
        · rw [if_neg has] at h
          rw [if_neg has]
          exact ih h
    · rw [if_neg hse]

theorem minusList_of_next_some : ∀ {l : List Range} {s e : Nat} {g : Range} {it' : MinusIter},
    nextIter l s e = some (g, it') →
    minusList l s e = g :: minusList it'.ranges it'.start it'.stop := by
  intro l
  induction l with
  | nil =>
    intro s e g it' h
    rw [nextIter_nil] at h
    by_cases hse : s < e
    · rw [if_pos hse] at h
      obtain ⟨h1, h2⟩ := Prod.mk.injEq _ _ _ _ ▸ Option.some.inj h
      subst h1
      subst h2
      rw [minusList_nil, if_pos hse]
      dsimp only
      rw [minusList_stop (by omega)]
    · rw [if_neg hse] at h
      cases h
  | cons x rest ih =>
    obtain ⟨a, b⟩ := x
    intro s e g it' h
    rw [nextIter_cons] at h
    by_cases hse : s < e
    · rw [if_pos hse] at h
      rw [minusList_cons, if_pos hse]
      by_cases hea : e ≤ a
      · rw [if_pos hea] at h
        obtain ⟨h1, h2⟩ := Prod.mk.injEq _ _ _ _ ▸ Option.some.inj h
        subst h1
        subst h2
        rw [if_pos hea]
        dsimp only
        rw [minusList_stop (by omega)]
      · rw [if_neg hea] at h
        rw [if_neg hea]
        by_cases has : a > s
        · rw [if_pos has] at h
          obtain ⟨h1, h2⟩ := Prod.mk.injEq _ _ _ _ ▸ Option.some.inj h
          subst h1
          subst h2
          rw [if_pos has]
        · rw [if_neg has] at h
          rw [if_neg has]
          exact ih h
    · rw [if_neg hse] at h
      cases h

theorem next_some_size : ∀ {l : List Range} {s e : Nat} {g : Range} {it' : MinusIter},
    nextIter l s e = some (g, it') → it'.start < it'.stop →
    it'.ranges.length < l.length := by
  intro l
  induction l with
  | nil =>
    intro s e g it' h hlt
    rw [nextIter_nil] at h
    by_cases hse : s < e
    · rw [if_pos hse] at h
      obtain ⟨h1, h2⟩ := Prod.mk.injEq _ _ _ _ ▸ Option.some.inj h
      subst h2
      simp at hlt
    · rw [if_neg hse] at h
      cases h
  | cons x rest ih =>
    obtain ⟨a, b⟩ := x
    intro s e g it' h hlt
    rw [nextIter_cons] at h
    by_cases hse : s < e
    · rw [if_pos hse] at h
      by_cases hea : e ≤ a
      · rw [if_pos hea] at h
        obtain ⟨h1, h2⟩ := Prod.mk.injEq _ _ _ _ ▸ Option.some.inj h
        subst h2
        simp at hlt
      · rw [if_neg hea] at h
        by_cases has : a > s
        · rw [if_pos has] at h
          obtain ⟨h1, h2⟩ := Prod.mk.injEq _ _ _ _ ▸ Option.some.inj h
          subst h2
          simp
        · rw [if_neg has] at h
          exact Nat.lt_trans (ih h hlt) (by simp)
    · rw [if_neg hse] at h
      cases h

theorem consumeFwd_zero (it : MinusIter) : consumeFwd 0 it = [] := rfl

theorem consumeFwd_succ (fuel : Nat) (it : MinusIter) :
    consumeFwd (fuel + 1) it =
      match it.next with
      | none => []
      | some (g, it') => g :: consumeFwd fuel it' := rfl

/-- Fully consuming the iterator forward with enough fuel produces exactly the
forward gap list of its state. -/
theorem consumeFwd_eq_minusList : ∀ (fuel : Nat) (l : List Range) (s e : Nat),
    (s < e → l.length < fuel) → consumeFwd fuel ⟨l, s, e⟩ = minusList l s e := by
  intro fuel
  induction fuel with
  | zero =>
    intro l s e h
    rw [consumeFwd_zero]
    by_cases hse : s < e
    · exact absurd (h hse) (by omega)
    · rw [minusList_stop hse]
  | succ fuel ih =>
    intro l s e h
    rw [consumeFwd_succ]
    cases hn : MinusIter.next ⟨l, s, e⟩ with
    | none =>
      rw [minusList_of_next_none hn]
    | some git =>
      obtain ⟨g, it'⟩ := git
      rw [minusList_of_next_some hn]
      show g :: consumeFwd fuel it' = g :: minusList it'.ranges it'.start it'.stop
      congr 1
      have hse : s < e := by
        by_contra hns
        rw [show MinusIter.next ⟨l, s, e⟩ = nextIter l s e from rfl,
          nextIter_stop hns] at hn
        cases hn
      obtain ⟨l', s', e'⟩ := it'
      apply ih
      intro hslt
      have hsize := next_some_size hn hslt
      have := h hse
      simp at hsize
      omega

theorem nextIter_pos : ∀ {l : List Range} {s e : Nat} {g : Range} {it' : MinusIter},
    nextIter l s e = some (g, it') → g.1 < g.2 := by
  intro l
  induction l with
  | nil =>
    intro s e g it' h
    rw [nextIter_nil] at h
    by_cases hse : s < e
    · rw [if_pos hse] at h
      obtain ⟨h1, h2⟩ := Prod.mk.injEq _ _ _ _ ▸ Option.some.inj h
      subst h1
      exact hse
    · rw [if_neg hse] at h
      cases h
  | cons x rest ih =>
    obtain ⟨a, b⟩ := x
    intro s e g it' h
    rw [nextIter_cons] at h
    by_cases hse : s < e
    · rw [if_pos hse] at h
      by_cases hea : e ≤ a
      · rw [if_pos hea] at h
        obtain ⟨h1, h2⟩ := Prod.mk.injEq _ _ _ _ ▸ Option.some.inj h
        subst h1
        exact hse
      · rw [if_neg hea] at h
        by_cases has : a > s
        · rw [if_pos has] at h
          obtain ⟨h1, h2⟩ := Prod.mk.injEq _ _ _ _ ▸ Option.some.inj h
          subst h1
          exact has
        · rw [if_neg has] at h
          exact ih h
    · rw [if_neg hse] at h
      cases h

theorem nextBackIter_pos : ∀ (fuel : Nat) {l : List Range} {s e : Nat} {g : Range}
    {it' : MinusIter}, nextBackIter fuel l s e = some (g, it') → g.1 < g.2 := by
  intro fuel
  induction fuel with
  | zero =>
    intro l s e g it' h
    cases h
  | succ fuel ih =>
    intro l s e g it' h
    rw [nextBackIter_succ] at h
    by_cases hse : s < e
    · rw [if_pos hse] at h
      cases hL : l.getLast? with
      | none =>
        simp only [hL] at h
        obtain ⟨h1, h2⟩ := Prod.mk.injEq _ _ _ _ ▸ Option.some.inj h
        subst h1
        exact hse
      | some x =>
        obtain ⟨a, b⟩ := x
        simp only [hL] at h
        by_cases hbs : b ≤ s
        · rw [if_pos hbs] at h
          obtain ⟨h1, h2⟩ := Prod.mk.injEq _ _ _ _ ▸ Option.some.inj h
          subst h1
          exact hse
        · rw [if_neg hbs] at h
          by_cases heb : e > b
          · rw [if_pos heb] at h
            obtain ⟨h1, h2⟩ := Prod.mk.injEq _ _ _ _ ▸ Option.some.inj h
            subst h1
            exact heb
          · rw [if_neg heb] at h
            exact ih h
    · rw [if_neg hse] at h
      cases h

theorem consumeDirs_nil (it : MinusIter) : consumeDirs [] it = [] := rfl

theorem consumeDirs_cons (d : Bool) (ds : List Bool) (it : MinusIter) :
    consumeDirs (d :: ds) it =
      match (if d then it.next else it.nextBack) with
      | none => consumeDirs ds it
      | some (g, it') => g :: consumeDirs ds it' := rfl

/-- Every interval yielded under any interleaving of forward and backward
steps is non-empty. -/
theorem consumeDirs_pos : ∀ (ds : List Bool) (it : MinusIter) (g : Range),
    g ∈ consumeDirs ds it → g.1 < g.2 := by
  intro ds
  induction ds with
  | nil =>
    intro it g hg
    rw [consumeDirs_nil] at hg
    simp at hg
  | cons d ds ih =>
    intro it g hg
    rw [consumeDirs_cons] at hg
    cases hn : (if d then it.next else it.nextBack) with
    | none =>
      rw [hn] at hg
      exact ih it g hg
    | some git =>
      obtain ⟨g', it'⟩ := git
      rw [hn] at hg
      rcases List.mem_cons.1 hg with rfl | hg'
      · cases d with
        | true =>
          rw [if_pos rfl] at hn
          exact nextIter_pos hn
        | false =>
          rw [if_neg (by simp)] at hn
          exact nextBackIter_pos _ hn
      · exact ih it' g hg'

/-- A valid interval list that covers exactly the non-empty window `[a, b)`
is the single interval `(a, b)`. -/
theorem invariant_covered_window {L : List Range} {a b : Nat} (hinv : Invariant L)
    (hfull : ∀ p, covered L p ↔ (a ≤ p ∧ p < b)) (hab : a < b) : L = [(a, b)] := by
  cases L with
  | nil => exact absurd ((hfull a).2 ⟨Nat.le_refl a, hab⟩) (covered_nil a)
  | cons g tl =>
    have hg : g.1 < g.2 := hinv.head_pos
    have hlt := hinv.head_lt
    have h1 : a ≤ g.1 ∧ g.1 < b :=
      (hfull g.1).1 ⟨g, List.mem_cons_self _ _, Nat.le_refl _, hg⟩
    have h2 := (hfull a).2 ⟨Nat.le_refl _, hab⟩
    rw [covered_cons] at h2
    have hga : g.1 = a := by
      rcases h2 with ⟨h2a, _⟩ | ⟨r, hr, hr1, hr2⟩
      · omega
      · have := hlt r hr
        omega
    have hg2b : b ≤ g.2 := by
      by_contra hlt2
      have hc := (hfull g.2).2 ⟨by omega, by omega⟩
      rw [covered_cons] at hc
      rcases hc with ⟨_, hcc⟩ | ⟨r, hr, hr1, hr2⟩
      · omega
      · have := hlt r hr
        omega
    have hg2 : g.2 ≤ b := by
      have := (hfull (g.2 - 1)).1 ⟨g, List.mem_cons_self _ _, by omega, by omega⟩
      omega
    have htl : tl = [] := by
      cases tl with
      | nil => rfl
      | cons y tl' =>
        have hy : y.1 < y.2 := hinv.tail.head_pos
        have hy1 := (hfull y.1).1
          ⟨y, List.mem_cons_of_mem _ (List.mem_cons_self _ _), Nat.le_refl _, hy⟩
        have := hlt y (List.mem_cons_self _ _)
        omega
    subst htl
    have : g = (a, b) := Prod.ext hga (by omega)
    rw [this]

/-! Facts about `apply_delta`. -/

theorem applyDeltaPush_def (out : List Range) (nr : Range) :
    applyDeltaPush out nr =
      if nr.1 = nr.2 then out
      else
        match out.getLast? with
        | some lst => if lst.2 = nr.1 then out.dropLast ++ [(lst.1, nr.2)] else out ++ [nr]
        | none => out ++ [nr] := rfl

theorem coalesceGo_nil (cur : Range) : coalesceGo cur [] = [cur] := rfl

theorem coalesceGo_cons (cur r : Range) (rest : List Range) :
    coalesceGo cur (r :: rest) =
      if cur.2 = r.1 then coalesceGo (cur.1, r.2) rest else cur :: coalesceGo r rest := rfl

/-- The output-building fold, run from a state whose last emitted interval is
`lst`, appends exactly the spec-side coalescing of the remaining (collapsed
intervals dropped) input. -/
theorem foldl_push_concat : ∀ (L out : List Range) (lst : Range),
    L.foldl applyDeltaPush (out ++ [lst]) =
      out ++ coalesceGo lst (L.filter fun r => r.1 ≠ r.2) := by
  intro L
  induction L with
  | nil =>
    intro out lst
    simp [coalesceGo_nil]
  | cons r L' ih =>
    intro out lst
    rw [List.foldl_cons]
    by_cases hc : r.1 = r.2
    · rw [show applyDeltaPush (out ++ [lst]) r = out ++ [lst] from by
        rw [applyDeltaPush_def, if_pos hc]]
      rw [ih]
      congr 2
      simp [List.filter_cons, hc]
    · have hlast : (out ++ [lst]).getLast? = some lst := List.getLast?_concat _
      have hdrop : (out ++ [lst]).dropLast = out := List.dropLast_concat ..
      have hfilter : (r :: L').filter (fun x : Range => x.1 ≠ x.2) =
          r :: L'.filter (fun x : Range => x.1 ≠ x.2) := by
        simp [List.filter_cons, hc]
      rw [hfilter, coalesceGo_cons]
      by_cases hm : lst.2 = r.1
      · rw [if_pos hm]
        rw [show applyDeltaPush (out ++ [lst]) r = out ++ [(lst.1, r.2)] from by
          rw [applyDeltaPush_def, if_neg hc, hlast]
          dsimp only
          rw [if_pos hm, hdrop]]
        exact ih out (lst.1, r.2)
      · rw [if_neg hm]
        rw [show applyDeltaPush (out ++ [lst]) r = (out ++ [lst]) ++ [r] from by
          rw [applyDeltaPush_def, if_neg hc, hlast]
          dsimp only
          rw [if_neg hm]]
        rw [ih (out ++ [lst]) r]
        simp

theorem foldl_push_eq_coalesce : ∀ L : List Range,
    L.foldl applyDeltaPush [] = coalesceSpec (L.filter fun r => r.1 ≠ r.2) := by
  intro L
  induction L with
  | nil => rfl
  | cons r L' ih =>
    rw [List.foldl_cons]
    by_cases hc : r.1 = r.2
    · rw [show applyDeltaPush [] r = [] from by rw [applyDeltaPush_def, if_pos hc]]
      rw [ih]
      congr 1
      simp [List.filter_cons, hc]
    · rw [show applyDeltaPush [] r = [] ++ [r] from by
        rw [applyDeltaPush_def, if_neg hc]
        rfl]
      rw [foldl_push_concat]
      have hfilter : (r :: L').filter (fun x : Range => x.1 ≠ x.2) =
          r :: L'.filter (fun x : Range => x.1 ≠ x.2) := by
        simp [List.filter_cons, hc]
      rw [hfilter]
      rfl

theorem dropWhile_head_spec {p : Range → Bool} : ∀ {l : List Range} {r : Range},
    (l.dropWhile p).head? = some r → r ∈ l ∧ p r = false := by
  intro l
  induction l with
  | nil => intro r h; simp at h
  | cons x xs ih =>
    intro r h
    rw [List.dropWhile_cons] at h
    by_cases hp : p x = true
    · rw [if_pos hp] at h
      obtain ⟨hm, hf⟩ := ih h
      exact ⟨List.mem_cons_of_mem _ hm, hf⟩
    · rw [if_neg hp] at h
      have : x = r := by simpa using h
      subst this
      exact ⟨List.mem_cons_self _ _, by simpa using hp⟩

/-! The claims. -/

/-- C1 (counterexample): the claim admits `start == end` calls
(`start <= end`), but `union_one_range(0, 0)` on the empty set stores the
empty interval `(0, 0)`, and `delete_range(3, 3)` on the valid set `{[1, 5)}`
splits it into the touching pair `(1, 3), (3, 5)`; both outcomes violate the
stated invariant. -/
theorem C1_counterexample :
    (∀ op ∈ [Op.union 0 0], op.startArg ≤ op.endArg) ∧
      applyOps [Op.union 0 0] = [(0, 0)] ∧
      ¬ Invariant (applyOps [Op.union 0 0]) ∧
      (∀ op ∈ [Op.union 1 5, Op.delete 3 3], op.startArg ≤ op.endArg) ∧
      applyOps [Op.union 1 5, Op.delete 3 3] = [(1, 3), (3, 5)] ∧
      ¬ Invariant (applyOps [Op.union 1 5, Op.delete 3 3]) := by decide

/-- C1 (amended): after any sequence of `union_one_range`/`delete_range`
calls whose arguments satisfy `start < end`, starting from the empty set, the
stored intervals are strictly ordered, pairwise non-overlapping and
non-touching, and non-empty. -/
theorem C1_invariant_preservation (ops : List Op)
    (h : ∀ op ∈ ops, op.startArg < op.endArg) : Invariant (applyOps ops) := by
  have haux : ∀ (ops' : List Op) (init : List Range),
      (∀ op ∈ ops', op.startArg < op.endArg) → Invariant init →
      Invariant (ops'.foldl applyOp init) := by
    intro ops'
    induction ops' with
    | nil => intro init _ hi; exact hi
    | cons op rest ih =>
      intro init hv hi
      rw [List.foldl_cons]
      apply ih _ (fun o ho => hv o (List.mem_cons_of_mem _ ho))
      have hop := hv op (List.mem_cons_self _ _)
      cases op with
      | union s e => exact union_inv hop hi
      | delete s e => exact delete_inv hi hop
  exact haux ops [] h invariant_nil

theorem C1_witness :
    (∀ op ∈ [Op.union 3 5, Op.union 7 9, Op.delete 4 8], op.startArg < op.endArg) ∧
      Invariant (applyOps [Op.union 3 5, Op.union 7 9, Op.delete 4 8]) :=
  ⟨by decide, C1_invariant_preservation _ (by decide)⟩

/-- C2 (counterexample): `union_one_range(0, 0)` on the empty set does add a
stored interval — the empty interval `(0, 0)` — so the stored sequence is not
left unchanged. -/
theorem C2_counterexample :
    union_one_range [] 0 0 = [(0, 0)] ∧ union_one_range [] 0 0 ≠ [] := by decide

/-- C2 (amended): on a valid set, `union_one_range(s, s)` leaves the stored
sequence unchanged when `s` lies inside or touches some stored interval, and
otherwise inserts the empty stored interval `(s, s)` at its sorted position
(after the intervals ending before `s`). -/
theorem C2_union_empty_range (l : List Range) (s : Nat) (hinv : Invariant l) :
    ((∃ r ∈ l, r.1 ≤ s ∧ s ≤ r.2) → union_one_range l s s = l) ∧
      (¬ (∃ r ∈ l, r.1 ≤ s ∧ s ≤ r.2) →
        union_one_range l s s =
          l.takeWhile (fun r => r.2 < s) ++ (s, s) :: l.dropWhile (fun r => r.2 < s)) :=
  union_point_spec hinv

theorem C2_witness :
    Invariant [((1 : Nat), (3 : Nat))] ∧
      (((∃ r ∈ [((1 : Nat), (3 : Nat))], r.1 ≤ 2 ∧ 2 ≤ r.2) →
          union_one_range [(1, 3)] 2 2 = [(1, 3)]) ∧
        (¬ (∃ r ∈ [((1 : Nat), (3 : Nat))], r.1 ≤ 2 ∧ 2 ≤ r.2) →
          union_one_range [(1, 3)] 2 2 =
            List.takeWhile (fun r => r.2 < 2) [(1, 3)] ++
              (2, 2) :: List.dropWhile (fun r => r.2 < 2) [(1, 3)])) :=
  ⟨by decide, C2_union_empty_range [(1, 3)] 2 (by decide)⟩

/-- C3 (code bug): `delete_range(s, s)` is not a no-op.  On the valid,
reachable set `{[1, 5)}` the call `delete_range(3, 3)` splits the stored
interval into the touching pair `(1, 3), (3, 5)`, changing the stored
sequence and violating the set's own non-touching invariant, while deleting
an empty range should remove nothing. -/
theorem C3_delete_empty_range_splits :
    applyOps [Op.union 1 5] = [(1, 5)] ∧ Invariant [(1, 5)] ∧
      delete_range [(1, 5)] 3 3 = [(1, 3), (3, 5)] ∧
      delete_range [(1, 5)] 3 3 ≠ [(1, 5)] ∧
      ¬ Invariant (delete_range [(1, 5)] 3 3) := by decide

/-- C4 (counterexample): for `s = e = 0`, `union_one_range(0, 0)` on the
empty set stores `(0, 0)` and the following `delete_range(0, 0)` does not
remove it, so the final stored sequence is not empty. -/
theorem C4_counterexample :
    delete_range (union_one_range [] 0 0) 0 0 = [(0, 0)] ∧
      delete_range (union_one_range [] 0 0) 0 0 ≠ [] := by decide

/-- C4 (amended): for every `s < e`, on a freshly created empty set,
`union_one_range(s, e)` followed by `delete_range(s, e)` yields the empty
stored sequence. -/
theorem C4_union_then_delete (s e : Nat) (hse : s < e) :
    delete_range (union_one_range [] s e) s e = [] := by
  have hcmp : compare e s = Ordering.gt := Nat.compare_eq_gt.2 hse
  show deleteLoop s e 2 [(s, e)]
      (sumIdx (bsLoop (fun i => compare ([(s, e)].getD i (0, 0)).2 s) 2 0 1)) none 0 = []
  have hbs : bsLoop (fun i => compare ([(s, e)].getD i (0, 0)).2 s) 2 0 1 = Sum.inr 0 := by
    rw [bsLoop]
    rw [if_pos (by omega)]
    dsimp only
    conv_lhs => rw [show compare ([((s : Nat), e)].getD (0 + (1 - 0) / 2) (0, 0)).2 s =
      Ordering.gt from hcmp]
    dsimp only
    rw [bsLoop]
    rw [if_neg (by omega)]
  rw [hbs]
  show deleteLoop s e 2 [(s, e)] 0 none 0 = []
  rw [deleteLoop]
  rw [if_pos (by simp)]
  rw [if_neg (show ¬ ((([((s : Nat), e)]).getD 0 (0, 0)).1 ≥ e) by show ¬ s ≥ e; omega)]
  rw [if_neg (show ¬ ((([((s : Nat), e)]).getD 0 (0, 0)).1 < s) by show ¬ s < s; omega)]
  rw [if_neg (show ¬ ((([((s : Nat), e)]).getD 0 (0, 0)).2 > e) by show ¬ e > e; omega)]
  show deleteLoop s e 1 [(s, e)] 1 (some 0) 1 = []
  rw [deleteLoop]
  rw [if_neg (by simp)]
  rfl

theorem C4_witness : (0 : Nat) < 1 ∧ delete_range (union_one_range [] 0 1) 0 1 = [] :=
  ⟨by decide, C4_union_then_delete 0 1 (by decide)⟩

/-- C5: on a valid set, fully consuming `minus_one_range(a, b)` forward
yields a valid (ordered, disjoint, non-empty) list of gaps covering exactly
the window positions not covered by the stored intervals; gaps never overlap
stored intervals, distinct stored intervals never share a position, an empty
window yields nothing, a fully covered window yields nothing, and a window
overlapping no stored interval yields exactly `[(a, b)]`. -/
theorem C5_minus_partition (ranges : List Range) (a b : Nat) (hinv : Invariant ranges)
    (_hab : a ≤ b) :
    (∀ p, covered (consumeFwd ((minus_one_range ranges a b).ranges.length + 1)
        (minus_one_range ranges a b)) p ↔ (a ≤ p ∧ p < b ∧ ¬ covered ranges p)) ∧
      Invariant (consumeFwd ((minus_one_range ranges a b).ranges.length + 1)
        (minus_one_range ranges a b)) ∧
      (∀ g ∈ consumeFwd ((minus_one_range ranges a b).ranges.length + 1)
          (minus_one_range ranges a b), ∀ r ∈ ranges, ∀ p, g.1 ≤ p → p < g.2 →
          ¬ (r.1 ≤ p ∧ p < r.2)) ∧
      (∀ r1 ∈ ranges, ∀ r2 ∈ ranges, ∀ p, r1.1 ≤ p → p < r1.2 → r2.1 ≤ p → p < r2.2 →
        r1 = r2) ∧
      (a = b → consumeFwd ((minus_one_range ranges a b).ranges.length + 1)
        (minus_one_range ranges a b) = []) ∧
      ((∀ p, a ≤ p → p < b → covered ranges p) →
        consumeFwd ((minus_one_range ranges a b).ranges.length + 1)
          (minus_one_range ranges a b) = []) ∧
      ((∀ p, a ≤ p → p < b → ¬ covered ranges p) → a < b →
        consumeFwd ((minus_one_range ranges a b).ranges.length + 1)
          (minus_one_range ranges a b) = [(a, b)]) := by
  have hL : consumeFwd ((minus_one_range ranges a b).ranges.length + 1)
      (minus_one_range ranges a b) = minusList (dropLeading a ranges) a b :=
    consumeFwd_eq_minusList _ _ _ _ (fun _ => Nat.lt_succ_self _)
  have hinv' : Invariant (dropLeading a ranges) :=
    Invariant.sublist (dropLeading_sublist a ranges) hinv
  have hpre : ∀ r ∈ dropLeading a ranges, a < r.2 := dropLeading_ends hinv
  have hmem : ∀ p, covered (minusList (dropLeading a ranges) a b) p ↔
      (a ≤ p ∧ p < b ∧ ¬ covered ranges p) := by
    intro p
    rw [minusList_mem_iff hinv' hpre]
    constructor
    · rintro ⟨h1, h2, h3⟩
      exact ⟨h1, h2, fun hc => h3 ((dropLeading_covered h1).2 hc)⟩
    · rintro ⟨h1, h2, h3⟩
      exact ⟨h1, h2, fun hc => h3 ((dropLeading_covered h1).1 hc)⟩
  have hLinv : Invariant (minusList (dropLeading a ranges) a b) :=
    (minusList_inv_lb hinv' hpre).1
  rw [hL]
  refine ⟨hmem, hLinv, ?_, ?_, ?_, ?_, ?_⟩
  · intro g hg r hr p hp1 hp2 ⟨hr1, hr2⟩
    have hcov := (hmem p).1 ⟨g, hg, hp1, hp2⟩
    exact hcov.2.2 ⟨r, hr, hr1, hr2⟩
  · intro r1 hr1 r2 hr2 p h1 h2 h3 h4
    rcases hinv.mem_rel hr1 hr2 with h | h | h
    · exact h
    · omega
    · omega
  · intro hab'
    exact minusList_stop (by omega)
  · intro hfull
    cases hLl : minusList (dropLeading a ranges) a b with
    | nil => rfl
    | cons g tl =>
      exfalso
      have hg : g.1 < g.2 := by
        rw [hLl] at hLinv
        exact hLinv.head_pos
      have hcov := (hmem g.1).1 (by
        rw [hLl]
        exact ⟨g, List.mem_cons_self _ _, Nat.le_refl _, hg⟩)
      exact hcov.2.2 (hfull g.1 hcov.1 hcov.2.1)
  · intro hnone hab'
    apply invariant_covered_window hLinv _ hab'
    intro p
    rw [hmem p]
    constructor
    · rintro ⟨h1, h2, _⟩
      exact ⟨h1, h2⟩
    · rintro ⟨h1, h2⟩
      exact ⟨h1, h2, hnone p h1 h2⟩

theorem C5_witness :
    Invariant [((3 : Nat), (5 : Nat))] ∧ (0 : Nat) ≤ 10 ∧
      ((∀ p, covered (consumeFwd ((minus_one_range [(3, 5)] 0 10).ranges.length + 1)
          (minus_one_range [(3, 5)] 0 10)) p ↔ (0 ≤ p ∧ p < 10 ∧ ¬ covered [(3, 5)] p)) ∧
        Invariant (consumeFwd ((minus_one_range [(3, 5)] 0 10).ranges.length + 1)
          (minus_one_range [(3, 5)] 0 10)) ∧
        (∀ g ∈ consumeFwd ((minus_one_range [(3, 5)] 0 10).ranges.length + 1)
            (minus_one_range [(3, 5)] 0 10), ∀ r ∈ [((3 : Nat), (5 : Nat))], ∀ p,
            g.1 ≤ p → p < g.2 → ¬ (r.1 ≤ p ∧ p < r.2)) ∧
        (∀ r1 ∈ [((3 : Nat), (5 : Nat))], ∀ r2 ∈ [((3 : Nat), (5 : Nat))], ∀ p,
          r1.1 ≤ p → p < r1.2 → r2.1 ≤ p → p < r2.2 → r1 = r2) ∧
        ((0 : Nat) = 10 → consumeFwd ((minus_one_range [(3, 5)] 0 10).ranges.length + 1)
          (minus_one_range [(3, 5)] 0 10) = []) ∧
        ((∀ p, 0 ≤ p → p < 10 → covered [(3, 5)] p) →
          consumeFwd ((minus_one_range [(3, 5)] 0 10).ranges.length + 1)
            (minus_one_range [(3, 5)] 0 10) = []) ∧
        ((∀ p, 0 ≤ p → p < 10 → ¬ covered [(3, 5)] p) → (0 : Nat) < 10 →
          consumeFwd ((minus_one_range [(3, 5)] 0 10).ranges.length + 1)
            (minus_one_range [(3, 5)] 0 10) = [(0, 10)])) :=
  ⟨by decide, by decide, C5_minus_partition [(3, 5)] 0 10 (by decide) (by decide)⟩

/-- C6 (divergence witness): on the valid, reachable set `{[5, 7)}` the
window `[0, 3)` lies entirely before the stored interval; fully consuming
forward yields `[(0, 3)]`, but fully consuming backward yields `[(0, 5)]` —
an interval that even extends past the window — so the forward list is not
the reverse of the backward list. -/
theorem C6_forward_backward_diverge :
    applyOps [Op.union 5 7] = [(5, 7)] ∧ Invariant [(5, 7)] ∧
      consumeFwd 5 (minus_one_range [(5, 7)] 0 3) = [(0, 3)] ∧
      consumeBack 5 (minus_one_range [(5, 7)] 0 3) = [(0, 5)] ∧
      consumeFwd 5 (minus_one_range [(5, 7)] 0 3) ≠
        (consumeBack 5 (minus_one_range [(5, 7)] 0 3)).reverse := by decide

/-- C7: on a valid set with `s ≤ e`, a new range `[s, e)` touching a stored
interval `(a, b)` (`e = a` or `s = b`) is coalesced: the number of stored
intervals does not grow, and the result contains a single stored interval
spanning both `[s, e)` and `[a, b)`.  (The witness instantiates the spec's
example: unioning `(1,2)`, `(3,5)`, then `(2,3)` yields `[(1,5)]`.) -/
theorem C7_touch_merge (l : List Range) (s e a b : Nat) (hinv : Invariant l)
    (hse : s ≤ e) (hmem : (a, b) ∈ l) (htouch : e = a ∨ s = b) :
    (union_one_range l s e).length ≤ l.length ∧
      ∃ c d, (c, d) ∈ union_one_range l s e ∧ c ≤ s ∧ c ≤ a ∧ e ≤ d ∧ b ≤ d := by
  induction l with
  | nil => simp at hmem
  | cons x rest ih =>
    obtain ⟨i1, i2⟩ := x
    have h1 : i1 < i2 := hinv.head_pos
    have h2 : ∀ y ∈ rest, i2 < y.1 := hinv.head_lt
    have hab : a < b := hinv.mem_pos hmem
    rw [union_cons]
    by_cases hc1 : s > i2
    · rw [if_pos hc1]
      have hmem' : (a, b) ∈ rest := by
        rcases List.mem_cons.1 hmem with heq | h
        · exfalso
          have ha : a = i1 := congrArg Prod.fst heq
          have hb : b = i2 := congrArg Prod.snd heq
          rcases htouch with h | h <;> omega
        · exact h
      obtain ⟨hlen, c, d, hcd, hc⟩ := ih hinv.tail hmem'
      refine ⟨?_, c, d, List.mem_cons_of_mem _ hcd, hc⟩
      simp only [List.length_cons]
      omega
    · rw [if_neg hc1]
      by_cases hc2 : e < i1
      · exfalso
        rcases List.mem_cons.1 hmem with heq | hm'
        · have ha : a = i1 := congrArg Prod.fst heq
          have hb : b = i2 := congrArg Prod.snd heq
          rcases htouch with h | h <;> omega
        · have := h2 _ hm'
          rcases htouch with h | h <;> omega
      · rw [if_neg hc2]
        have habs := unionAbsorb_props (e := e) (c := (i1, i2)) h2
          (fun y hy => hinv.tail.1 y hy) hinv.tail.2
        have hca : min s i1 ≤ a := by
          rcases List.mem_cons.1 hmem with heq | hm'
          · have ha : a = i1 := congrArg Prod.fst heq
            omega
          · have := h2 _ hm'
            omega
        have hbd : b ≤ max e (unionAbsorb e (i1, i2) rest).1.2 := by
          rcases List.mem_cons.1 hmem with heq | hm'
          · have hb : b = i2 := congrArg Prod.snd heq
            have := habs.2.2.2
            omega
          · rcases htouch with h | h
            · have := unionAbsorb_mem_end (e := e) (c := (i1, i2)) h2
                (fun y hy => hinv.tail.1 y hy) hinv.tail.2 hm' (by omega)
              omega
            · exfalso
              have := h2 _ hm'
              omega
        refine ⟨?_, min s i1, max e (unionAbsorb e (i1, i2) rest).1.2,
          List.mem_cons_self _ _, by omega, hca, by omega, hbd⟩
        have := unionAbsorb_length (e := e) (l := rest) (c := (i1, i2))
        simp only [List.length_cons]
        omega

theorem C7_witness :
    union_one_range (union_one_range (union_one_range [] 1 2) 3 5) 2 3 = [(1, 5)] ∧
      Invariant [((1 : Nat), (2 : Nat)), (3, 5)] ∧
      ((union_one_range [(1, 2), (3, 5)] 2 3).length ≤ 2 ∧
        ∃ c d, (c, d) ∈ union_one_range [(1, 2), (3, 5)] 2 3 ∧ c ≤ 2 ∧ c ≤ 3 ∧ 3 ≤ d ∧
          5 ≤ d) :=
  ⟨by decide, by decide,
    C7_touch_merge [(1, 2), (3, 5)] 2 3 3 5 (by decide) (by decide) (by decide)
      (Or.inl rfl)⟩

/-- C8: on a valid set, unioning the same range `[s, e)` (with `s ≤ e`) twice
in succession yields the same stored sequence as unioning it once. -/
theorem C8_union_idempotent (l : List Range) (s e : Nat) (hinv : Invariant l)
    (hse : s ≤ e) :
    union_one_range (union_one_range l s e) s e = union_one_range l s e := by
  rcases Nat.lt_or_ge s e with hlt | hge
  · have hinv' : Invariant (union_one_range l s e) := union_inv hlt hinv
    have hcov : ∀ p, s ≤ p → p < e → covered (union_one_range l s e) p := fun p hp1 hp2 =>
      (union_covered hinv).2 (Or.inr ⟨hp1, hp2⟩)
    obtain ⟨r, hr, hr1, hr2⟩ := exists_container hinv' hlt hcov
    obtain ⟨x, y⟩ := r
    exact union_container_id hse hinv' hr hr1 hr2
  · have heq : e = s := by omega
    subst heq
    by_cases htouch : ∃ r ∈ l, r.1 ≤ e ∧ e ≤ r.2
    · rw [(union_point_spec hinv).1 htouch]
      exact (union_point_spec hinv).1 htouch
    · rw [(union_point_spec hinv).2 htouch]
      apply union_point_fixed
      · intro r hr
        have := List.mem_takeWhile_imp hr
        simpa using this
      · intro r hr
        obtain ⟨hmem, hpred⟩ := dropWhile_head_spec hr
        have hnr : ¬ (r.1 ≤ e ∧ e ≤ r.2) := fun hc => htouch ⟨r, hmem, hc⟩
        have : ¬ (r.2 < e) := by simpa using hpred
        omega

theorem C8_witness :
    Invariant [((3 : Nat), (5 : Nat))] ∧ (1 : Nat) ≤ 2 ∧
      union_one_range (union_one_range [(3, 5)] 1 2) 1 2 = union_one_range [(3, 5)] 1 2 :=
  ⟨by decide, by decide, C8_union_idempotent [(3, 5)] 1 2 (by decide) (by decide)⟩

/-- C9: `apply_delta` equals the spec-side description — map both endpoints
of every stored interval through the transform with prefer-after-insertion
`false`, drop every interval that collapsed to zero width, and coalesce each
mapped interval into the previously emitted one exactly when it starts where
that one ends.  The embedding is functional, so the source list is a value
and is never mutated. -/
theorem C9_apply_delta_spec (ranges : List Range) (transform : Nat → Bool → Nat) :
    apply_delta ranges transform = applyDeltaSpec ranges transform := by
  rw [apply_delta, applyDeltaSpec, ← foldl_push_eq_coalesce, List.foldl_map]

/-- C10: every interval yielded by a `minus_one_range` iterator under any
sequence of `next`/`next_back` calls is non-empty, for every backing set
(even one containing a stored empty interval) and every window. -/
theorem C10_minus_yields_nonempty (ranges : List Range) (a b : Nat) (ds : List Bool)
    (g : Range) (hg : g ∈ consumeDirs ds (minus_one_range ranges a b)) : g.1 < g.2 :=
  consumeDirs_pos ds _ g hg

theorem C10_witness :
    ((0, 2) ∈ consumeDirs [true, false] (minus_one_range [(2, 2)] 0 3)) ∧
      ((0 : Nat), (2 : Nat)).1 < ((0 : Nat), (2 : Nat)).2 :=
  ⟨by decide, C10_minus_yields_nonempty [(2, 2)] 0 3 [true, false] (0, 2) (by decide)⟩

end IndexSet
